import Mathlib

/-!
Verification development for the edea KiCad tooling core.  It gives a shallow
embedding of: the bounding-box geometry of `bbox.py`; the s-expression
tokenizer, parser and serializer of `parser.py`; the attribute-style child
lookup on generic tree nodes; pad, footprint-line and footprint geometry; the
SVG rectangle drawing branch; timestamp randomization; and the two
format-version gates (`edea.py` `Project.parse` and the typed schema layer).
Python floats are modelled as exact rationals inside the parse tree and as
real numbers inside the geometry kernel.
-/

namespace Edea

/-- Fold of `min` over a list with an explicit seed.  `np.min` over a
nonempty array `x :: l` is `foldMin x l`. -/
def foldMin {α : Type} [LinearOrder α] (x : α) (l : List α) : α :=
  l.foldl min x

/-- Fold of `max` over a list with an explicit seed.  `np.max` over a
nonempty array `x :: l` is `foldMax x l`. -/
def foldMax {α : Type} [LinearOrder α] (x : α) (l : List α) : α :=
  l.foldl max x

theorem foldMin_le_seed {α : Type} [LinearOrder α] (x : α) (l : List α) :
    foldMin x l ≤ x := by
  induction l generalizing x with
  | nil => exact le_refl x
  | cons a l ih =>
    exact le_trans (ih (min x a)) (min_le_left x a)

theorem foldMin_le_mem {α : Type} [LinearOrder α] {a : α} (x : α) {l : List α}
    (h : a ∈ l) : foldMin x l ≤ a := by
  induction l generalizing x with
  | nil => cases h
  | cons b l ih =>
    rcases List.mem_cons.mp h with rfl | hmem
    · exact le_trans (foldMin_le_seed (min x a) l) (min_le_right x a)
    · exact ih (min x b) hmem

theorem foldMin_append {α : Type} [LinearOrder α] (x : α) (l₁ l₂ : List α) :
    foldMin x (l₁ ++ l₂) = foldMin (foldMin x l₁) l₂ :=
  List.foldl_append min x l₁ l₂

theorem seed_le_foldMax {α : Type} [LinearOrder α] (x : α) (l : List α) :
    x ≤ foldMax x l := by
  induction l generalizing x with
  | nil => exact le_refl x
  | cons a l ih =>
    exact le_trans (le_max_left x a) (ih (max x a))

theorem mem_le_foldMax {α : Type} [LinearOrder α] {a : α} (x : α) {l : List α}
    (h : a ∈ l) : a ≤ foldMax x l := by
  induction l generalizing x with
  | nil => cases h
  | cons b l ih =>
    rcases List.mem_cons.mp h with rfl | hmem
    · exact le_trans (le_max_right x a) (seed_le_foldMax (max x a) l)
    · exact ih (max x b) hmem

theorem foldMax_append {α : Type} [LinearOrder α] (x : α) (l₁ l₂ : List α) :
    foldMax x (l₁ ++ l₂) = foldMax (foldMax x l₁) l₂ :=
  List.foldl_append max x l₁ l₂

/-- Embedding of the `BoundingBox` class of `bbox.py`.  The Python class keeps
`min_x, max_x, min_y, max_y` floats plus a `_valid` flag; on reset the bounds
are `±inf` sentinels that are never read while `_valid` is false, so the
embedding stores `0` there.  Parametrised over an ordered field so that the
arithmetic parts stay executable; the trigonometric `rotate` is defined at
`ℝ` below. -/
structure Box (K : Type) where
  valid : Bool
  min_x : K
  max_x : K
  min_y : K
  max_y : K

variable {K : Type} [LinearOrderedField K]

/-- A freshly `reset` bounding box: `_valid = False`. -/
def Box.empty : Box K := ⟨false, 0, 0, 0, 0⟩

/-- The `corners` property: the four corners in the order used by the source.
In Python it returns `None` for an invalid box; it is only ever read when the
box is valid, which is how it is used below. -/
def Box.cornersList (b : Box K) : List (K × K) :=
  [(b.min_x, b.min_y), (b.min_x, b.max_y), (b.max_x, b.max_y), (b.max_x, b.min_y)]

/-- Minimum of the x coordinates of a nonempty point list `p :: ps`. -/
def ptsMinX (p : K × K) (ps : List (K × K)) : K := foldMin p.1 (ps.map Prod.fst)

/-- Maximum of the x coordinates of a nonempty point list `p :: ps`. -/
def ptsMaxX (p : K × K) (ps : List (K × K)) : K := foldMax p.1 (ps.map Prod.fst)

/-- Minimum of the y coordinates of a nonempty point list `p :: ps`. -/
def ptsMinY (p : K × K) (ps : List (K × K)) : K := foldMin p.2 (ps.map Prod.snd)

/-- Maximum of the y coordinates of a nonempty point list `p :: ps`. -/
def ptsMaxY (p : K × K) (ps : List (K × K)) : K := foldMax p.2 (ps.map Prod.snd)

/-- `BoundingBox.envelop`: with no points it is a no-op; otherwise the new
bounds are the componentwise min/max over the new points together with the
current corners when the box is valid.  The `(n,2)` shape check of the source
is guaranteed by the type. -/
def Box.envelop (b : Box K) : List (K × K) → Box K
  | [] => b
  | p :: ps =>
    let rest := ps ++ (if b.valid then b.cornersList else [])
    ⟨true, ptsMinX p rest, ptsMaxX p rest, ptsMinY p rest, ptsMaxY p rest⟩

/-- `BoundingBox.translate`: shift all bounds when valid, no-op otherwise. -/
def Box.translate (b : Box K) (c : K × K) : Box K :=
  if b.valid then ⟨true, b.min_x + c.1, b.max_x + c.1, b.min_y + c.2, b.max_y + c.2⟩
  else b

/-- The `width` property (`0` sentinel when the box is invalid). -/
def Box.width (b : Box K) : K := if b.valid then b.max_x - b.min_x else 0

/-- The `height` property (`0` sentinel when the box is invalid). -/
def Box.height (b : Box K) : K := if b.valid then b.max_y - b.min_y else 0

/-- The `area` property: `width * height`. -/
def Box.area (b : Box K) : K := b.width * b.height

/-- Well-formedness of a box: a valid box has ordered bounds.  Every box the
class can actually construct satisfies this. -/
def Box.WF (b : Box K) : Prop :=
  b.valid = true → b.min_x ≤ b.max_x ∧ b.min_y ≤ b.max_y

/-- Box containment: whenever `small` is valid, `big` is valid and its bounds
enclose those of `small`. -/
def Box.Contains (big small : Box K) : Prop :=
  small.valid = true →
    big.valid = true ∧ big.min_x ≤ small.min_x ∧ big.min_y ≤ small.min_y ∧
      small.max_x ≤ big.max_x ∧ small.max_y ≤ big.max_y

/-- The constant `tau` from Python's `math` module. -/
noncomputable def tau : ℝ := 2 * Real.pi

/-- `BoundingBox.rotate`: on a valid box, divide the angle by `tau` (the
source's degree conversion), apply `x*cos a + y*sin a, y*cos a + x*sin a` to
each corner, then reset and envelop the rotated corners.  The docstring of the
source says `angle is in degrees`. -/
noncomputable def Box.rotate (b : Box ℝ) (angle : ℝ) : Box ℝ :=
  if b.valid then
    let a := angle / tau
    let rotated := b.cornersList.map
      (fun q => (q.1 * Real.cos a + q.2 * Real.sin a, q.2 * Real.cos a + q.1 * Real.sin a))
    Box.empty.envelop rotated
  else b

theorem envelop_valid_of_valid {b : Box K} (h : b.valid = true) (pts : List (K × K)) :
    (b.envelop pts).valid = true := by
  cases pts with
  | nil => exact h
  | cons p ps => rfl

theorem envelop_min_x_le {b : Box K} (h : b.valid = true) (p : K × K) (ps : List (K × K)) :
    (b.envelop (p :: ps)).min_x ≤ b.min_x := by
  show ptsMinX p (ps ++ if b.valid then b.cornersList else []) ≤ b.min_x
  rw [h]
  simp only [if_true]
  refine foldMin_le_mem p.1 ?_
  rw [List.map_append]
  refine List.mem_append_right _ ?_
  simp [Box.cornersList]

theorem le_envelop_max_x {b : Box K} (h : b.valid = true) (p : K × K) (ps : List (K × K)) :
    b.max_x ≤ (b.envelop (p :: ps)).max_x := by
  show b.max_x ≤ ptsMaxX p (ps ++ if b.valid then b.cornersList else [])
  rw [h]
  simp only [if_true]
  refine mem_le_foldMax p.1 ?_
  rw [List.map_append]
  refine List.mem_append_right _ ?_
  simp [Box.cornersList]

theorem envelop_min_y_le {b : Box K} (h : b.valid = true) (p : K × K) (ps : List (K × K)) :
    (b.envelop (p :: ps)).min_y ≤ b.min_y := by
  show ptsMinY p (ps ++ if b.valid then b.cornersList else []) ≤ b.min_y
  rw [h]
  simp only [if_true]
  refine foldMin_le_mem p.2 ?_
  rw [List.map_append]
  refine List.mem_append_right _ ?_
  simp [Box.cornersList]

theorem le_envelop_max_y {b : Box K} (h : b.valid = true) (p : K × K) (ps : List (K × K)) :
    b.max_y ≤ (b.envelop (p :: ps)).max_y := by
  show b.max_y ≤ ptsMaxY p (ps ++ if b.valid then b.cornersList else [])
  rw [h]
  simp only [if_true]
  refine mem_le_foldMax p.2 ?_
  rw [List.map_append]
  refine List.mem_append_right _ ?_
  simp [Box.cornersList]

theorem envelop_contains_self {b : Box K} (pts : List (K × K)) :
    Box.Contains (b.envelop pts) b := by
  intro h
  cases pts with
  | nil => exact ⟨h, le_refl _, le_refl _, le_refl _, le_refl _⟩
  | cons p ps =>
    exact ⟨envelop_valid_of_valid h _, envelop_min_x_le h p ps, envelop_min_y_le h p ps,
      le_envelop_max_x h p ps, le_envelop_max_y h p ps⟩

/-- The box enveloped from scratch over the same nonempty point list has
looser-or-equal bounds than any envelop of those points into an existing
box. -/
theorem envelop_contains_fresh (b : Box K) (pts : List (K × K)) :
    Box.Contains (b.envelop pts) ((Box.empty : Box K).envelop pts) := by
  cases pts with
  | nil => intro h; cases h
  | cons p ps =>
    intro _
    refine ⟨rfl, ?_, ?_, ?_, ?_⟩
    · show ptsMinX p (ps ++ if b.valid then b.cornersList else []) ≤
        ptsMinX p (ps ++ if (false : Bool) then Box.cornersList Box.empty else [])
      simp only [Bool.false_eq_true, if_false, List.append_nil, ptsMinX, List.map_append,
        foldMin_append]
      exact foldMin_le_seed _ _
    · show ptsMinY p (ps ++ if b.valid then b.cornersList else []) ≤
        ptsMinY p (ps ++ if (false : Bool) then Box.cornersList Box.empty else [])
      simp only [Bool.false_eq_true, if_false, List.append_nil, ptsMinY, List.map_append,
        foldMin_append]
      exact foldMin_le_seed _ _
    · show ptsMaxX p (ps ++ if (false : Bool) then Box.cornersList Box.empty else []) ≤
        ptsMaxX p (ps ++ if b.valid then b.cornersList else [])
      simp only [Bool.false_eq_true, if_false, List.append_nil, ptsMaxX, List.map_append,
        foldMax_append]
      exact seed_le_foldMax _ _
    · show ptsMaxY p (ps ++ if (false : Bool) then Box.cornersList Box.empty else []) ≤
        ptsMaxY p (ps ++ if b.valid then b.cornersList else [])
      simp only [Bool.false_eq_true, if_false, List.append_nil, ptsMaxY, List.map_append,
        foldMax_append]
      exact seed_le_foldMax _ _

theorem contains_trans {a b c : Box K} (h₁ : Box.Contains a b) (h₂ : Box.Contains b c) :
    Box.Contains a c := by
  intro hc
  obtain ⟨hbv, h1, h2, h3, h4⟩ := h₂ hc
  obtain ⟨hav, g1, g2, g3, g4⟩ := h₁ hbv
  exact ⟨hav, le_trans g1 h1, le_trans g2 h2, le_trans h3 g3, le_trans h4 g4⟩

theorem envelop_wf {b : Box K} (h : b.WF) (pts : List (K × K)) : (b.envelop pts).WF := by
  cases pts with
  | nil => exact h
  | cons p ps =>
    intro _
    constructor
    · show ptsMinX p _ ≤ ptsMaxX p _
      exact le_trans (foldMin_le_seed _ _) (seed_le_foldMax _ _)
    · show ptsMinY p _ ≤ ptsMaxY p _
      exact le_trans (foldMin_le_seed _ _) (seed_le_foldMax _ _)

theorem width_nonneg {b : Box K} (h : b.WF) : 0 ≤ b.width := by
  unfold Box.width
  by_cases hv : b.valid = true
  · rw [if_pos hv]; linarith [(h hv).1]
  · rw [if_neg hv]

theorem height_nonneg {b : Box K} (h : b.WF) : 0 ≤ b.height := by
  unfold Box.height
  by_cases hv : b.valid = true
  · rw [if_pos hv]; linarith [(h hv).2]
  · rw [if_neg hv]

theorem envelop_area_mono {b : Box K} (h : b.WF) (pts : List (K × K)) :
    b.area ≤ (b.envelop pts).area := by
  cases pts with
  | nil => exact le_refl _
  | cons p ps =>
    by_cases hv : b.valid = true
    · have h₁ := envelop_min_x_le hv p ps
      have h₂ := le_envelop_max_x hv p ps
      have h₃ := envelop_min_y_le hv p ps
      have h₄ := le_envelop_max_y hv p ps
      have hval : (b.envelop (p :: ps)).valid = true := envelop_valid_of_valid hv _
      have hw : b.width ≤ (b.envelop (p :: ps)).width := by
        unfold Box.width
        rw [if_pos hv, if_pos hval]
        linarith
      have hh : b.height ≤ (b.envelop (p :: ps)).height := by
        unfold Box.height
        rw [if_pos hv, if_pos hval]
        linarith
      exact mul_le_mul hw hh (height_nonneg h) (le_trans (width_nonneg h) hw)
    · have hb : b.area = 0 := by
        unfold Box.area Box.width
        rw [if_neg hv, zero_mul]
      rw [hb]
      have hwf := envelop_wf h (p :: ps)
      exact mul_nonneg (width_nonneg hwf) (height_nonneg hwf)

/-- C6: for all point sets `P1` and `P2`, calling `envelop(P1)` then
`envelop(P2)` on a box yields a box that contains both the box obtained from
`P1` alone and the box obtained from `P2` alone, and the box area is
non-decreasing across each of the two envelop calls. -/
theorem envelop_monotone (b : Box ℝ) (P1 P2 : List (ℝ × ℝ)) (hwf : b.WF) :
    Box.Contains ((b.envelop P1).envelop P2) ((Box.empty : Box ℝ).envelop P1) ∧
    Box.Contains ((b.envelop P1).envelop P2) ((Box.empty : Box ℝ).envelop P2) ∧
    b.area ≤ (b.envelop P1).area ∧
    (b.envelop P1).area ≤ ((b.envelop P1).envelop P2).area := by
  refine ⟨?_, ?_, ?_, ?_⟩
  · exact contains_trans (envelop_contains_self P2) (envelop_contains_fresh b P1)
  · exact envelop_contains_fresh (b.envelop P1) P2
  · exact envelop_area_mono hwf P1
  · exact envelop_area_mono (envelop_wf hwf P1) P2

theorem envelop_monotone_witness :
    Box.WF (⟨true, 0, 1, 0, 1⟩ : Box ℝ) ∧
    (Box.Contains (((⟨true, 0, 1, 0, 1⟩ : Box ℝ).envelop [(2, 2)]).envelop [(-1, 0)])
        ((Box.empty : Box ℝ).envelop [(2, 2)]) ∧
      Box.Contains (((⟨true, 0, 1, 0, 1⟩ : Box ℝ).envelop [(2, 2)]).envelop [(-1, 0)])
        ((Box.empty : Box ℝ).envelop [(-1, 0)]) ∧
      (⟨true, 0, 1, 0, 1⟩ : Box ℝ).area ≤ ((⟨true, 0, 1, 0, 1⟩ : Box ℝ).envelop [(2, 2)]).area ∧
      ((⟨true, 0, 1, 0, 1⟩ : Box ℝ).envelop [(2, 2)]).area ≤
        (((⟨true, 0, 1, 0, 1⟩ : Box ℝ).envelop [(2, 2)]).envelop [(-1, 0)]).area) :=
  ⟨fun _ => ⟨zero_le_one, zero_le_one⟩,
    envelop_monotone ⟨true, 0, 1, 0, 1⟩ [(2, 2)] [(-1, 0)] (fun _ => ⟨zero_le_one, zero_le_one⟩)⟩

theorem sin_360_div_tau_pos : 0 < Real.sin (360 / tau) := by
  have hgt := Real.pi_gt_d6
  have hlt := Real.pi_lt_d2
  have hpos : (0 : ℝ) < Real.pi := by linarith
  have hθ : (360 : ℝ) / tau = 180 / Real.pi := by
    unfold tau
    field_simp
    ring
  rw [hθ]
  have hy : (180 / Real.pi : ℝ) = (180 / Real.pi - 18 * Real.pi) + (9 : ℤ) * (2 * Real.pi) := by
    push_cast
    ring
  rw [hy, Real.sin_add_int_mul_two_pi]
  have h1 : 0 < 180 / Real.pi - 18 * Real.pi := by
    have hsq : 18 * Real.pi ^ 2 < 180 := by nlinarith
    have : 18 * Real.pi < 180 / Real.pi := by
      rw [lt_div_iff₀ hpos]
      nlinarith
    linarith
  have h2 : 180 / Real.pi - 18 * Real.pi < Real.pi := by
    have hsq : 180 < 19 * Real.pi ^ 2 := by nlinarith
    have : 180 / Real.pi < 19 * Real.pi := by
      rw [div_lt_iff₀ hpos]
      nlinarith
    linarith
  exact Real.sin_pos_of_pos_of_lt_pi h1 h2

/-- C5: the source's `BoundingBox.rotate` does not return to the original
corners at 360 degrees.  The box built from the single point `(1, 0)` has
`min_y = 0`, but after `rotate 360` its `min_y` is `sin (360 / tau)`, which is
strictly positive: the source divides the angle by `tau` where a degree
conversion must multiply by `tau / 360`, contradicting its own docstring
(`angle is in degrees`). -/
theorem rotate_360_moves_corner :
    (((Box.empty : Box ℝ).envelop [(1, 0)]).rotate 360).min_y ≠
      ((Box.empty : Box ℝ).envelop [(1, 0)]).min_y := by
  have hbox : (Box.empty : Box ℝ).envelop [(1, 0)] = ⟨true, 1, 1, 0, 0⟩ := by
    simp [Box.envelop, Box.empty, ptsMinX, ptsMaxX, ptsMinY, ptsMaxY, foldMin, foldMax]
  rw [hbox]
  have hrot : ((⟨true, 1, 1, 0, 0⟩ : Box ℝ).rotate 360).min_y = Real.sin (360 / tau) := by
    simp [Box.rotate, Box.cornersList, Box.envelop, Box.empty, ptsMinY, foldMin, min_self]
  rw [hrot]
  show Real.sin (360 / tau) ≠ 0
  exact ne_of_gt sin_360_div_tau_pos

/-- Embedding of the `Pad` node data used by `Pad.corners`: the `at` child
values, the `size` child values and the shape field `self[2]`. -/
structure PadRec where
  at_ : List ℝ
  size : List ℝ
  shape : String

/-- Embedding of `Pad.corners`.  Faithful to the source: the angle is
`at[2] / tau` when the `at` child has a third entry, the four base points are
scaled by `(w*cos + h*sin, h*cos + w*sin)` for the box-like shapes (with the
diamond base for `oval`), a radius diamond for `circle`, and every other shape
raises `NotImplementedError`. -/
noncomputable def padCorners (p : PadRec) : Except String (List (ℝ × ℝ)) :=
  let angle : ℝ := if 2 < p.at_.length then p.at_.getD 2 0 / tau else 0
  let ox : ℝ := p.at_.getD 0 0
  let oy : ℝ := p.at_.getD 1 0
  if p.shape ∈ (["rect", "roundrect", "oval", "custom"] : List String) then
    let base : List (ℝ × ℝ) :=
      if p.shape = "oval" then [(1, 0), (-1, 0), (0, 1), (0, -1)]
      else [(1, 1), (1, -1), (-1, 1), (-1, -1)]
    let w := p.size.getD 0 0 / 2
    let h := p.size.getD 1 0 / 2
    let cs := Real.cos angle
    let sn := Real.sin angle
    Except.ok (base.map (fun q => (ox + q.1 * (w * cs + h * sn), oy + q.2 * (h * cs + w * sn))))
  else if p.shape = "circle" then
    let radius := p.size.getD 0 0 / 2
    Except.ok ([((1 : ℝ), (0 : ℝ)), (-1, 0), (0, 1), (0, -1)].map
      (fun q => (ox + q.1 * radius, oy + q.2 * radius)))
  else
    Except.error ("pad shape " ++ p.shape ++ " is not implemented")

/-- C8: `Pad.corners` returns exactly 4 corner points for every implemented
pad shape (rect, roundrect, oval, custom, circle) and raises an explicit
not-implemented error for every other shape value. -/
theorem pad_corners_four_or_error (p : PadRec) :
    (p.shape ∈ (["rect", "roundrect", "oval", "custom", "circle"] : List String) →
      ∃ pts, padCorners p = Except.ok pts ∧ pts.length = 4) ∧
    (p.shape ∉ (["rect", "roundrect", "oval", "custom", "circle"] : List String) →
      padCorners p = Except.error ("pad shape " ++ p.shape ++ " is not implemented")) := by
  constructor
  · intro hmem
    by_cases h4 : p.shape ∈ (["rect", "roundrect", "oval", "custom"] : List String)
    · unfold padCorners
      rw [if_pos h4]
      by_cases hoval : p.shape = "oval"
      · rw [if_pos hoval]
        exact ⟨_, rfl, rfl⟩
      · rw [if_neg hoval]
        exact ⟨_, rfl, rfl⟩
    · have hcirc : p.shape = "circle" := by
        simp only [List.mem_cons, List.mem_singleton] at hmem h4
        tauto
      unfold padCorners
      rw [if_neg h4, if_pos hcirc]
      exact ⟨_, rfl, rfl⟩
  · intro hnot
    have h4 : p.shape ∉ (["rect", "roundrect", "oval", "custom"] : List String) := by
      simp only [List.mem_cons, List.mem_singleton] at hnot ⊢
      tauto
    have hcirc : ¬p.shape = "circle" := by
      simp only [List.mem_cons, List.mem_singleton] at hnot
      tauto
    unfold padCorners
    rw [if_neg h4, if_neg hcirc]

theorem pad_corners_witness :
    (∃ pts, padCorners ⟨[0, 0], [2, 2], "rect"⟩ = Except.ok pts ∧ pts.length = 4) ∧
    padCorners ⟨[0, 0], [2, 2], "trapezoid"⟩ =
      Except.error ("pad shape " ++ "trapezoid" ++ " is not implemented") :=
  ⟨(pad_corners_four_or_error ⟨[0, 0], [2, 2], "rect"⟩).1 (by simp),
    (pad_corners_four_or_error ⟨[0, 0], [2, 2], "trapezoid"⟩).2 (by simp)⟩

/-- Embedding of the `FPLine` node data used by `FPLine.corners`: the `start`
and `end` children (the latter named `end_` since `end` is reserved). -/
structure FPLineRec where
  start : ℝ × ℝ
  end_ : ℝ × ℝ

/-- Embedding of `FPLine.corners`: the two endpoints verbatim. -/
def fpLineCorners (l : FPLineRec) : List (ℝ × ℝ) :=
  [(l.start.1, l.start.2), (l.end_.1, l.end_.2)]

/-- Embedding of the `Footprint` node data used by `Footprint.bounding_box`:
the `at` child values, the contained `pad` children and the contained
`fp_line` children.  The Python attribute layer returns the single node when a
tag occurs once and the list of nodes when it occurs more than once, and
`hasattr` is false when the tag is absent; the embedding keeps plain lists and
matches on their length accordingly. -/
structure FootprintRec where
  at_ : List ℝ
  pads : List PadRec
  lines : List FPLineRec

/-- Envelop the corners of each pad in turn into `box`
(`[box.envelop(pad.corners()) for pad in self.pad]`), propagating the
exception of an unimplemented pad shape. -/
noncomputable def envelopPadCorners (box : Box ℝ) : List PadRec → Except String (Box ℝ)
  | [] => Except.ok box
  | p :: rest =>
    match padCorners p with
    | Except.error e => Except.error e
    | Except.ok cs => envelopPadCorners (box.envelop cs) rest

/-- The rotate-then-translate step of `Footprint.bounding_box`: rotate by
`at[2]` when the `at` child has a third entry, then translate by
`at[0:2]`. -/
noncomputable def fpTransform (f : FootprintRec) (box : Box ℝ) : Box ℝ :=
  let box2 := if 2 < f.at_.length then box.rotate (f.at_.getD 2 0) else box
  box2.translate (f.at_.getD 0 0, f.at_.getD 1 0)

/-- Embedding of `Footprint.bounding_box`, faithful to the source control
flow: the pad block envelops the single pad's corners (or each pad's corners
when there are several) and then rotates and translates; the `fp_line` block
envelops the single line's corners — but when there are several lines the
source iterates `self.pad` again (`for pad in self.pad`) — and then rotates
and translates a second time. -/
noncomputable def fpBoundingBox (f : FootprintRec) : Except String (Box ℝ) :=
  let afterPads : Except String (Box ℝ) :=
    match f.pads with
    | [] => Except.ok Box.empty
    | [p] =>
      match padCorners p with
      | Except.error e => Except.error e
      | Except.ok cs => Except.ok (fpTransform f ((Box.empty : Box ℝ).envelop cs))
    | ps =>
      match envelopPadCorners Box.empty ps with
      | Except.error e => Except.error e
      | Except.ok bx => Except.ok (fpTransform f bx)
  match afterPads with
  | Except.error e => Except.error e
  | Except.ok box1 =>
    match f.lines with
    | [] => Except.ok box1
    | [l] => Except.ok (fpTransform f (box1.envelop (fpLineCorners l)))
    | _ =>
      match envelopPadCorners box1 f.pads with
      | Except.error e => Except.error e
      | Except.ok bx => Except.ok (fpTransform f bx)

/-- Follows the words of the spec for `Footprint.bounding_box`: union the
bounding boxes of all contained pads and all contained footprint lines, rotate
the union by the footprint's own angle if nonzero, then translate by the
anchor position — rotate then translate applied once to the whole union. -/
noncomputable def fpBoundingBoxSpec (f : FootprintRec) : Except String (Box ℝ) :=
  match envelopPadCorners Box.empty f.pads with
  | Except.error e => Except.error e
  | Except.ok bx =>
    let bx2 := (f.lines.map fpLineCorners).foldl Box.envelop bx
    let bx3 :=
      if 2 < f.at_.length ∧ f.at_.getD 2 0 ≠ 0 then bx2.rotate (f.at_.getD 2 0) else bx2
    Except.ok (bx3.translate (f.at_.getD 0 0, f.at_.getD 1 0))

/-- C4: a footprint anchored at `(10, 0)` with one `rect` pad (2×2, at the pad
origin) and one footprint line from `(0, 0)` to `(1, 1)`.  The source applies
the translate step once per block, so the pad corners get translated twice
(`max_x = 21`), while the spec's rotate-then-translate-once on the whole union
gives `max_x = 11`. -/
theorem footprint_bbox_double_transform :
    fpBoundingBox ⟨[10, 0], [⟨[0, 0], [2, 2], "rect"⟩], [⟨(0, 0), (1, 1)⟩]⟩ =
      Except.ok ⟨true, 10, 21, -1, 1⟩ ∧
    fpBoundingBoxSpec ⟨[10, 0], [⟨[0, 0], [2, 2], "rect"⟩], [⟨(0, 0), (1, 1)⟩]⟩ =
      Except.ok ⟨true, 9, 11, -1, 1⟩ := by
  have hpad : padCorners ⟨[0, 0], [2, 2], "rect"⟩ =
      Except.ok [(1, 1), (1, -1), (-1, 1), (-1, -1)] := by
    unfold padCorners
    rw [if_pos (by decide : ("rect" : String) ∈ (["rect", "roundrect", "oval", "custom"] : List String)),
      if_neg (by decide : ¬("rect" : String) = "oval")]
    norm_num [Real.cos_zero, Real.sin_zero]
  constructor
  · simp only [fpBoundingBox, hpad, fpTransform, fpLineCorners, Box.envelop, Box.empty,
      Box.translate, Box.cornersList, ptsMinX, ptsMaxX, ptsMinY, ptsMaxY, foldMin, foldMax,
      List.map, List.foldl, List.length, List.getD, List.append, List.get?]
    norm_num [min_def, max_def]
  · simp only [fpBoundingBoxSpec, envelopPadCorners, hpad, fpTransform, fpLineCorners,
      Box.envelop, Box.empty, Box.translate, Box.cornersList, ptsMinX, ptsMaxX, ptsMinY,
      ptsMaxY, foldMin, foldMax, List.map, List.foldl, List.length, List.getD, List.append,
      List.get?]
    norm_num [min_def, max_def]

/-- A digit character `0`..`9`. -/
def isDigitChar (c : Char) : Bool := '0' ≤ c && c ≤ '9'

/-- Value of a big-endian digit string (`int(s)` on an all-digit string). -/
def decimalVal (cs : List Char) : ℕ :=
  cs.foldl (fun a c => a * 10 + (c.toNat - 48)) 0

/-- Embedding of Python `int(token)` restricted to a nonempty all-digit
string: `None` otherwise.  Python additionally accepts unicode digits and
underscore separators, which never appear in the serialized output and are
not modelled. -/
def digitsVal? (cs : List Char) : Option ℕ :=
  if cs ≠ [] ∧ cs.all isDigitChar then some (decimalVal cs) else none

/-- Big-endian digit characters of a positive number; the first argument is
recursion fuel, always called with `fuel ≥ n`. -/
def natCharsAux : ℕ → ℕ → List Char
  | 0, _ => []
  | fuel + 1, n =>
    if n = 0 then [] else natCharsAux fuel (n / 10) ++ [Char.ofNat (48 + n % 10)]

/-- Decimal digit string of a natural number, as printed by Python `str`. -/
def natChars (n : ℕ) : List Char :=
  if n = 0 then ['0'] else natCharsAux n n

/-- Embedding of Python `int(token)`: an optional sign followed by digits. -/
def intParse? : List Char → Option ℤ
  | [] => none
  | c :: rest =>
    if c = '-' then Option.map (fun n : ℕ => -(n : ℤ)) (digitsVal? rest)
    else if c = '+' then Option.map (fun n : ℕ => (n : ℤ)) (digitsVal? rest)
    else Option.map (fun n : ℕ => (n : ℤ)) (digitsVal? (c :: rest))

/-- Embedding of Python `str(int)`: a minus sign for negatives followed by
the decimal digits. -/
def intChars (z : ℤ) : List Char :=
  if z < 0 then '-' :: natChars z.natAbs else natChars z.toNat

theorem digitChar_toNat {d : ℕ} (h : d < 10) : (Char.ofNat (48 + d)).toNat = 48 + d := by
  interval_cases d <;> decide

theorem digitChar_isDigit {d : ℕ} (h : d < 10) : isDigitChar (Char.ofNat (48 + d)) = true := by
  interval_cases d <;> decide

theorem decimalVal_cons_append (a : ℕ) (xs ys : List Char) :
    (xs ++ ys).foldl (fun a c => a * 10 + (c.toNat - 48)) a =
      ys.foldl (fun a c => a * 10 + (c.toNat - 48))
        (xs.foldl (fun a c => a * 10 + (c.toNat - 48)) a) :=
  List.foldl_append _ _ _ _

theorem decimalVal_from (a : ℕ) (ys : List Char) :
    ys.foldl (fun a c => a * 10 + (c.toNat - 48)) a = a * 10 ^ ys.length + decimalVal ys := by
  induction ys generalizing a with
  | nil => simp [decimalVal]
  | cons c ys ih =>
    show ys.foldl _ (a * 10 + (c.toNat - 48)) = _
    rw [ih]
    have h2 : decimalVal (c :: ys) = (c.toNat - 48) * 10 ^ ys.length + decimalVal ys := by
      show ys.foldl _ (0 * 10 + (c.toNat - 48)) = _
      rw [ih]
      ring_nf
    rw [h2, List.length_cons]
    ring

theorem decimalVal_append (xs ys : List Char) :
    decimalVal (xs ++ ys) = decimalVal xs * 10 ^ ys.length + decimalVal ys := by
  unfold decimalVal
  rw [List.foldl_append]
  exact decimalVal_from _ _

theorem natCharsAux_all_digits (fuel n : ℕ) : (natCharsAux fuel n).all isDigitChar = true := by
  induction fuel generalizing n with
  | zero => rfl
  | succ fuel ih =>
    unfold natCharsAux
    by_cases h : n = 0
    · rw [if_pos h]; rfl
    · rw [if_neg h, List.all_append, ih]
      have : isDigitChar (Char.ofNat (48 + n % 10)) = true :=
        digitChar_isDigit (Nat.mod_lt n (by norm_num))
      simp [this]

theorem natCharsAux_zero (fuel : ℕ) : natCharsAux fuel 0 = [] := by
  cases fuel with
  | zero => rfl
  | succ fuel => rw [natCharsAux, if_pos rfl]

theorem decimalVal_natCharsAux (fuel n : ℕ) (h : n ≤ fuel) :
    decimalVal (natCharsAux fuel n) = n := by
  induction fuel generalizing n with
  | zero =>
    have : n = 0 := by omega
    subst this
    rfl
  | succ fuel ih =>
    unfold natCharsAux
    by_cases h0 : n = 0
    · rw [if_pos h0, h0]; rfl
    · rw [if_neg h0, decimalVal_append]
      have hd : decimalVal [Char.ofNat (48 + n % 10)] = n % 10 := by
        show 0 * 10 + ((Char.ofNat (48 + n % 10)).toNat - 48) = n % 10
        rw [digitChar_toNat (Nat.mod_lt n (by norm_num))]
        omega
      rw [hd, ih (n / 10) (by omega)]
      simp only [List.length_cons, List.length_nil, pow_one]
      omega

theorem natChars_all_digits (n : ℕ) : (natChars n).all isDigitChar = true := by
  unfold natChars
  by_cases h : n = 0
  · rw [if_pos h]; decide
  · rw [if_neg h]
    exact natCharsAux_all_digits n n

theorem natChars_ne_nil (n : ℕ) : natChars n ≠ [] := by
  unfold natChars
  by_cases h : n = 0
  · rw [if_pos h]; simp
  · rw [if_neg h]
    cases n with
    | zero => exact absurd rfl h
    | succ k =>
      rw [natCharsAux, if_neg h]
      simp

theorem decimalVal_natChars (n : ℕ) : decimalVal (natChars n) = n := by
  unfold natChars
  by_cases h : n = 0
  · rw [if_pos h, h]; rfl
  · rw [if_neg h]
    exact decimalVal_natCharsAux n n (le_refl n)

theorem natCharsAux_length_le (fuel n k : ℕ) (h : n < 10 ^ k) :
    (natCharsAux fuel n).length ≤ k := by
  induction fuel generalizing n k with
  | zero => simp [natCharsAux]
  | succ fuel ih =>
    unfold natCharsAux
    by_cases h0 : n = 0
    · rw [if_pos h0]; simp
    · rw [if_neg h0, List.length_append]
      have hk : 0 < k := by
        by_contra hcontr
        have : k = 0 := by omega
        subst this
        simp at h
        omega
      have hdiv : n / 10 < 10 ^ (k - 1) := by
        have h10 : (10 : ℕ) ^ k = 10 ^ (k - 1) * 10 := by
          conv_lhs => rw [show k = (k - 1) + 1 by omega]
          ring
        rw [h10] at h
        omega
      have := ih (n / 10) (k - 1) hdiv
      simp only [List.length_cons, List.length_nil]
      omega

theorem natChars_length_le {n k : ℕ} (hk : 0 < k) (h : n < 10 ^ k) :
    (natChars n).length ≤ k := by
  unfold natChars
  by_cases h0 : n = 0
  · rw [if_pos h0]; simpa using hk
  · rw [if_neg h0]
    exact natCharsAux_length_le n n k h

theorem digitsVal?_natChars (n : ℕ) : digitsVal? (natChars n) = some n := by
  unfold digitsVal?
  rw [if_pos ⟨natChars_ne_nil n, natChars_all_digits n⟩, decimalVal_natChars]

theorem natChars_head_digit (n : ℕ) :
    ∀ c ∈ (natChars n).head?, isDigitChar c = true := by
  intro c hc
  have hne := natChars_ne_nil n
  cases hhd : natChars n with
  | nil => exact absurd hhd hne
  | cons d l =>
    rw [hhd] at hc
    simp only [List.head?_cons, Option.mem_def, Option.some.injEq] at hc
    subst hc
    have := natChars_all_digits n
    rw [hhd, List.all_cons, Bool.and_eq_true] at this
    exact this.1

theorem intParse?_intChars (z : ℤ) : intParse? (intChars z) = some z := by
  unfold intChars
  by_cases h : z < 0
  · rw [if_pos h]
    show intParse? ('-' :: natChars z.natAbs) = some z
    simp only [intParse?]
    rw [if_pos trivial, digitsVal?_natChars]
    simp only [Option.map_some']
    congr 1
    omega
  · rw [if_neg h]
    have hne := natChars_ne_nil z.toNat
    cases hhd : natChars z.toNat with
    | nil => exact absurd hhd hne
    | cons c l =>
      have hdig : isDigitChar c = true := by
        have := natChars_head_digit z.toNat
        rw [hhd] at this
        exact this c rfl
      have hc1 : ¬c = '-' := by
        intro hcontr; subst hcontr; cases hdig
      have hc2 : ¬c = '+' := by
        intro hcontr; subst hcontr; cases hdig
      simp only [intParse?]
      rw [if_neg hc1, if_neg hc2, ← hhd, digitsVal?_natChars]
      simp only [Option.map_some']
      congr 1
      omega

/-- Exact value of a finite Python float literal, stored as `m * 10 ^ s` in
the canonical form where `10` does not divide a nonzero `m` (and `m = 0`
forces `s = 0`), so that equal literal values have equal representations.
This models CPython floats as exact decimals: IEEE rounding, `inf`, `nan` and
underscore separators are outside the embedding. -/
structure Dec where
  m : ℤ
  s : ℤ
deriving DecidableEq

/-- Remove factors of ten, bumping the exponent; the first argument is
recursion fuel, always called with `fuel ≥ a`. -/
def stripTensAux : ℕ → ℕ → ℤ → ℕ × ℤ
  | 0, a, s => (a, s)
  | fuel + 1, a, s =>
    if 0 < a ∧ a % 10 = 0 then stripTensAux fuel (a / 10) (s + 1) else (a, s)

/-- Remove factors of ten from `a`, bumping the exponent accordingly. -/
def stripTens (a : ℕ) (s : ℤ) : ℕ × ℤ := stripTensAux a a s

/-- Canonical decimal from a raw mantissa and exponent. -/
def canonDec (m : ℤ) (s : ℤ) : Dec :=
  if m = 0 then ⟨0, 0⟩
  else
    let p := stripTens m.natAbs s
    ⟨if m < 0 then -(p.1 : ℤ) else (p.1 : ℤ), p.2⟩

/-- Canonical-form invariant of `Dec`. -/
def DecWF (d : Dec) : Prop :=
  (d.m = 0 ∧ d.s = 0) ∨ (d.m ≠ 0 ∧ ¬(10 : ℤ) ∣ d.m)

/-- The optional exponent tail of a float literal: empty means exponent `0`;
otherwise `e`/`E` followed by an optionally signed digit string. -/
def expVal? : List Char → Option ℤ
  | [] => some 0
  | c :: r => if c = 'e' ∨ c = 'E' then intParse? r else none

/-- Sign application for a parsed mantissa. -/
def decSign (neg : Bool) (n : ℕ) : ℤ := if neg then -(n : ℤ) else (n : ℤ)

theorem decSign_true (n : ℕ) : decSign true n = -(n : ℤ) := rfl

theorem decSign_false (n : ℕ) : decSign false n = (n : ℤ) := rfl

theorem decSign_zero (neg : Bool) : decSign neg 0 = 0 := by
  cases neg <;> rfl

theorem decSign_ne_zero (neg : Bool) {n : ℕ} (hn : n ≠ 0) : decSign neg n ≠ 0 := by
  cases neg with
  | false => rw [decSign_false]; omega
  | true => rw [decSign_true]; omega

theorem decSign_natAbs (neg : Bool) (n : ℕ) : (decSign neg n).natAbs = n := by
  cases neg with
  | false => rw [decSign_false, Int.natAbs_ofNat]
  | true => rw [decSign_true, Int.natAbs_neg, Int.natAbs_ofNat]

theorem sign_if_eq (neg : Bool) (n a : ℕ) (hn : 0 < n) :
    (if decSign neg n < 0 then -(a : ℤ) else (a : ℤ)) = decSign neg a := by
  cases neg with
  | false =>
    rw [decSign_false, decSign_false, if_neg (by omega : ¬(n : ℤ) < 0)]
  | true =>
    rw [decSign_true, decSign_true, if_pos (by omega : -(n : ℤ) < 0)]

/-- The part of a float literal after the integer digits `ip`: nothing, a dot
with fraction digits and an optional exponent, or a bare exponent. -/
def floatParseTail (neg : Bool) (ip : List Char) : List Char → Option Dec
  | [] =>
    if ip = [] then none
    else some (canonDec (decSign neg (decimalVal ip)) 0)
  | c :: rest3 =>
    if c = '.' then
      let fp := rest3.takeWhile isDigitChar
      let rest4 := rest3.dropWhile isDigitChar
      if ip = [] ∧ fp = [] then none
      else
        Option.map (fun e => canonDec (decSign neg (decimalVal (ip ++ fp))) (e - fp.length))
          (expVal? rest4)
    else
      if ip = [] then none
      else Option.map (fun e => canonDec (decSign neg (decimalVal ip)) e) (expVal? (c :: rest3))

/-- The body of Python `float(token)` after the optional sign: digits, an
optional dot with more digits (at least one digit in total), and an optional
exponent. -/
def floatParseCore (neg : Bool) (rest : List Char) : Option Dec :=
  floatParseTail neg (rest.takeWhile isDigitChar) (rest.dropWhile isDigitChar)

/-- Embedding of Python `float(token)` for finite decimal literals. -/
def floatParse? : List Char → Option Dec
  | [] => none
  | c :: r =>
    if c = '-' then floatParseCore true r
    else if c = '+' then floatParseCore false r
    else floatParseCore false (c :: r)

/-- Digit string of a fractional part, left-padded with zeros to width `k`. -/
def padDigits (k n : ℕ) : List Char :=
  List.replicate (k - (natChars n).length) '0' ++ natChars n

/-- The digits of `str(float)` for the value `a * 10 ^ s` with `a : ℕ`:
integral values print with a trailing `.0`, fractional values print their
last `-s` digits after the dot. -/
def floatBodyChars (a : ℕ) (s : ℤ) : List Char :=
  if 0 ≤ s then natChars (a * 10 ^ s.toNat) ++ ['.', '0']
  else natChars (a / 10 ^ (-s).toNat) ++ '.' :: padDigits (-s).toNat (a % 10 ^ (-s).toNat)

/-- Embedding of Python `str(float)` on the exact decimal `d` (CPython's
shortest-repr reproduces the canonical decimal digits for such values). -/
def floatChars (d : Dec) : List Char :=
  (if d.m < 0 then ['-'] else []) ++ floatBodyChars d.m.natAbs d.s

theorem stripTensAux_zero_arg (fuel : ℕ) (s : ℤ) : stripTensAux fuel 0 s = (0, s) := by
  cases fuel with
  | zero => rfl
  | succ fuel =>
    rw [stripTensAux, if_neg]
    intro hcontr
    exact absurd hcontr.1 (lt_irrefl 0)

theorem stripTensAux_fuel (f₁ f₂ a : ℕ) (s : ℤ) (h₁ : a ≤ f₁) (h₂ : a ≤ f₂) :
    stripTensAux f₁ a s = stripTensAux f₂ a s := by
  induction f₁ generalizing f₂ a s with
  | zero =>
    have : a = 0 := by omega
    subst this
    rw [stripTensAux_zero_arg, stripTensAux_zero_arg]
  | succ f₁ ih =>
    cases f₂ with
    | zero =>
      have : a = 0 := by omega
      subst this
      rw [stripTensAux_zero_arg, stripTensAux_zero_arg]
    | succ f₂ =>
      rw [stripTensAux, stripTensAux]
      by_cases h : 0 < a ∧ a % 10 = 0
      · rw [if_pos h, if_pos h]
        have h10 : 10 ≤ a := by omega
        exact ih f₂ (a / 10) (s + 1) (by omega) (by omega)
      · rw [if_neg h, if_neg h]

theorem stripTens_eq_self {a : ℕ} (ha : 0 < a) (hnd : a % 10 ≠ 0) (s : ℤ) :
    stripTens a s = (a, s) := by
  unfold stripTens
  cases a with
  | zero => exact absurd ha (lt_irrefl 0)
  | succ k =>
    rw [stripTensAux, if_neg]
    intro hcontr
    exact hnd hcontr.2

theorem stripTens_mul_pow (a : ℕ) (ha : 0 < a) (t : ℕ) (s : ℤ) :
    stripTens (a * 10 ^ t) s = stripTens a (s + t) := by
  induction t generalizing s with
  | zero => simp
  | succ t ih =>
    have hge : 10 ≤ a * 10 ^ (t + 1) := by
      have h1 : 1 * 10 ≤ a * 10 ^ (t + 1) := by
        have : (10 : ℕ) ≤ 10 ^ (t + 1) := by
          calc (10 : ℕ) = 10 ^ 1 := (pow_one 10).symm
          _ ≤ 10 ^ (t + 1) := Nat.pow_le_pow_right (by norm_num) (by omega)
        calc 1 * 10 = 10 := one_mul 10
        _ ≤ 10 ^ (t + 1) := this
        _ ≤ a * 10 ^ (t + 1) := Nat.le_mul_of_pos_left _ ha
      omega
    have hmod : a * 10 ^ (t + 1) % 10 = 0 := by
      have heq : a * 10 ^ (t + 1) = (a * 10 ^ t) * 10 := by ring
      omega
    have hdiv : a * 10 ^ (t + 1) / 10 = a * 10 ^ t := by
      have heq : a * 10 ^ (t + 1) = (a * 10 ^ t) * 10 := by ring
      omega
    show stripTensAux (a * 10 ^ (t + 1)) (a * 10 ^ (t + 1)) s = _
    rcases hM : a * 10 ^ (t + 1) with _ | M
    · omega
    · rw [stripTensAux, if_pos (by omega), ← hM, hdiv]
      have hfu : stripTensAux M (a * 10 ^ t) (s + 1) =
          stripTensAux (a * 10 ^ t) (a * 10 ^ t) (s + 1) := by
        refine stripTensAux_fuel _ _ _ _ ?_ (le_refl _)
        have hpow : (10 : ℕ) ^ t < 10 ^ (t + 1) := Nat.pow_lt_pow_right (by norm_num) (by omega)
        have : a * 10 ^ t < a * 10 ^ (t + 1) := by
          exact Nat.mul_lt_mul_of_le_of_lt (le_refl a) hpow ha
        omega
      rw [hfu]
      show stripTens (a * 10 ^ t) (s + 1) = stripTens a (s + ↑(t + 1))
      rw [ih]
      congr 1
      push_cast
      ring

theorem stripTensAux_pos_nd (fuel : ℕ) : ∀ a : ℕ, ∀ s : ℤ, 0 < a → a ≤ fuel →
    0 < (stripTensAux fuel a s).1 ∧ (stripTensAux fuel a s).1 % 10 ≠ 0 := by
  induction fuel with
  | zero =>
    intro a s ha hle
    omega
  | succ fuel ih =>
    intro a s ha hle
    rw [stripTensAux]
    by_cases h : 0 < a ∧ a % 10 = 0
    · rw [if_pos h]
      have h10 : 10 ≤ a := by omega
      exact ih (a / 10) (s + 1) (by omega) (by omega)
    · rw [if_neg h]
      exact ⟨ha, by omega⟩

theorem stripTens_pos_nd {a : ℕ} (ha : 0 < a) (s : ℤ) :
    0 < (stripTens a s).1 ∧ (stripTens a s).1 % 10 ≠ 0 :=
  stripTensAux_pos_nd a a s ha (le_refl a)

theorem canonDec_wf (m s : ℤ) : DecWF (canonDec m s) := by
  unfold canonDec
  by_cases h : m = 0
  · rw [if_pos h]
    exact Or.inl ⟨rfl, rfl⟩
  · rw [if_neg h]
    have hpos : 0 < m.natAbs := Int.natAbs_pos.mpr h
    obtain ⟨h1, h2⟩ := stripTens_pos_nd hpos s
    refine Or.inr ⟨?_, ?_⟩
    · dsimp only
      by_cases hneg : m < 0
      · rw [if_pos hneg]
        simp only [ne_eq, neg_eq_zero, Int.natCast_eq_zero]
        omega
      · rw [if_neg hneg]
        simp only [ne_eq, Int.natCast_eq_zero]
        omega
    · dsimp only
      by_cases hneg : m < 0
      · rw [if_pos hneg]
        intro hdvd
        rw [dvd_neg] at hdvd
        omega
      · rw [if_neg hneg]
        intro hdvd
        omega

theorem floatParseTail_wf (neg : Bool) (ip t : List Char) (d : Dec)
    (h : floatParseTail neg ip t = some d) : DecWF d := by
  cases t with
  | nil =>
    simp only [floatParseTail] at h
    split_ifs at h
    injection h with h
    rw [← h]
    exact canonDec_wf _ _
  | cons c rest3 =>
    simp only [floatParseTail] at h
    split_ifs at h
    · rcases he : expVal? (rest3.dropWhile isDigitChar) with _ | e <;> rw [he] at h
      · cases h
      · simp only [Option.map_some'] at h
        injection h with h
        rw [← h]
        exact canonDec_wf _ _
    · rcases he : expVal? (c :: rest3) with _ | e <;> rw [he] at h
      · cases h
      · simp only [Option.map_some'] at h
        injection h with h
        rw [← h]
        exact canonDec_wf _ _

theorem floatParse?_wf (cs : List Char) (d : Dec) (h : floatParse? cs = some d) : DecWF d := by
  cases cs with
  | nil => cases h
  | cons c r =>
    simp only [floatParse?] at h
    split_ifs at h <;> exact floatParseTail_wf _ _ _ _ h

theorem takeWhile_append_all {p : Char → Bool} {l : List Char} (h : l.all p = true)
    (r : List Char) : (l ++ r).takeWhile p = l ++ r.takeWhile p := by
  induction l with
  | nil => rfl
  | cons c l ih =>
    rw [List.all_cons, Bool.and_eq_true] at h
    show (c :: (l ++ r)).takeWhile p = _
    rw [List.takeWhile_cons_of_pos h.1, ih h.2]
    rfl

theorem dropWhile_append_all {p : Char → Bool} {l : List Char} (h : l.all p = true)
    (r : List Char) : (l ++ r).dropWhile p = r.dropWhile p := by
  induction l with
  | nil => rfl
  | cons c l ih =>
    rw [List.all_cons, Bool.and_eq_true] at h
    show (c :: (l ++ r)).dropWhile p = _
    rw [List.dropWhile_cons_of_pos h.1, ih h.2]

theorem takeWhile_all_self {p : Char → Bool} {l : List Char} (h : l.all p = true) :
    l.takeWhile p = l := by
  have := takeWhile_append_all h ([] : List Char)
  simpa using this

theorem dropWhile_all_nil {p : Char → Bool} {l : List Char} (h : l.all p = true) :
    l.dropWhile p = [] := by
  have := dropWhile_append_all h ([] : List Char)
  simpa using this

theorem decimalVal_replicate_zero (j : ℕ) : decimalVal (List.replicate j '0') = 0 := by
  induction j with
  | zero => rfl
  | succ j ih =>
    rw [List.replicate_succ]
    show (List.replicate j '0').foldl (fun a c => a * 10 + (c.toNat - 48))
      (0 * 10 + ('0'.toNat - 48)) = 0
    have h0 : (0 * 10 + ('0'.toNat - 48)) = 0 := by decide
    rw [h0]
    exact ih

theorem padDigits_all (k n : ℕ) : (padDigits k n).all isDigitChar = true := by
  unfold padDigits
  rw [List.all_append, Bool.and_eq_true]
  constructor
  · rw [List.all_eq_true]
    intro c hc
    rw [List.eq_of_mem_replicate hc]
    decide
  · exact natChars_all_digits n

theorem padDigits_ne_nil (k n : ℕ) : padDigits k n ≠ [] := by
  unfold padDigits
  intro h
  rw [List.append_eq_nil] at h
  exact natChars_ne_nil n h.2

theorem padDigits_length {k n : ℕ} (hk : 0 < k) (h : n < 10 ^ k) :
    (padDigits k n).length = k := by
  unfold padDigits
  rw [List.length_append, List.length_replicate]
  have := natChars_length_le hk h
  omega

theorem decimalVal_padDigits (k n : ℕ) : decimalVal (padDigits k n) = n := by
  unfold padDigits
  rw [decimalVal_append, decimalVal_replicate_zero, decimalVal_natChars]
  simp

theorem floatParseCore_body_int (neg : Bool) (M : ℕ) :
    floatParseCore neg (natChars M ++ ['.', '0']) =
      some (canonDec (decSign neg (M * 10)) (0 - 1)) := by
  unfold floatParseCore
  rw [takeWhile_append_all (natChars_all_digits M), dropWhile_append_all (natChars_all_digits M)]
  rw [show (['.', '0'] : List Char).takeWhile isDigitChar = [] from rfl,
    show (['.', '0'] : List Char).dropWhile isDigitChar = ['.', '0'] from rfl, List.append_nil]
  show floatParseTail neg (natChars M) ('.' :: ['0']) = _
  simp only [floatParseTail]
  rw [if_pos trivial]
  rw [show (['0'] : List Char).takeWhile isDigitChar = ['0'] from rfl,
    show (['0'] : List Char).dropWhile isDigitChar = [] from rfl]
  rw [if_neg (by simp)]
  rw [show expVal? [] = some 0 from rfl]
  simp only [Option.map_some']
  congr 2
  rw [decimalVal_append, decimalVal_natChars]
  have : decimalVal ['0'] = 0 := by decide
  rw [this]
  simp

theorem floatParseCore_body_frac (neg : Bool) (ipn : ℕ) (k : ℕ) (frn : ℕ) (hk : 0 < k)
    (hfr : frn < 10 ^ k) :
    floatParseCore neg (natChars ipn ++ '.' :: padDigits k frn) =
      some (canonDec (decSign neg (ipn * 10 ^ k + frn)) (0 - k)) := by
  unfold floatParseCore
  rw [takeWhile_append_all (natChars_all_digits ipn),
    dropWhile_append_all (natChars_all_digits ipn)]
  rw [List.takeWhile_cons_of_neg (by decide), List.dropWhile_cons_of_neg (by decide),
    List.append_nil]
  simp only [floatParseTail]
  rw [if_pos trivial]
  rw [takeWhile_all_self (padDigits_all k frn), dropWhile_all_nil (padDigits_all k frn)]
  rw [if_neg (by simp [padDigits_ne_nil k frn])]
  rw [show expVal? [] = some 0 from rfl]
  simp only [Option.map_some']
  congr 2
  · rw [decimalVal_append, decimalVal_padDigits, decimalVal_natChars, padDigits_length hk hfr]
  · rw [padDigits_length hk hfr]

/-- Parsing the printed body of the canonical decimal `a * 10 ^ s` with a
given sign flag recovers exactly that decimal. -/
theorem floatParseCore_body (neg : Bool) (a : ℕ) (s : ℤ)
    (hcanon : (a = 0 ∧ s = 0) ∨ (0 < a ∧ a % 10 ≠ 0)) :
    floatParseCore neg (floatBodyChars a s) = some ⟨decSign neg a, s⟩ := by
  unfold floatBodyChars
  by_cases hs : 0 ≤ s
  · rw [if_pos hs, floatParseCore_body_int]
    congr 1
    rcases hcanon with ⟨rfl, rfl⟩ | ⟨hpos, hnd⟩
    · show canonDec (decSign neg 0) (0 - 1) = _
      rw [decSign_zero]
      unfold canonDec
      rw [if_pos rfl]
    · have hM : a * 10 ^ s.toNat * 10 = a * 10 ^ (s.toNat + 1) := by ring
      rw [hM]
      unfold canonDec
      rw [if_neg (decSign_ne_zero neg (by positivity))]
      rw [decSign_natAbs, stripTens_mul_pow a hpos (s.toNat + 1) (0 - 1),
        stripTens_eq_self hpos hnd]
      dsimp only
      rw [sign_if_eq neg (a * 10 ^ (s.toNat + 1)) a (by positivity)]
      congr 1
      push_cast
      omega
  · push_neg at hs
    rw [if_neg (by omega)]
    have hk : 0 < (-s).toNat := by omega
    have hmod : a % 10 ^ (-s).toNat < 10 ^ (-s).toNat := Nat.mod_lt a (by positivity)
    rw [floatParseCore_body_frac neg _ _ _ hk hmod]
    have ha : 0 < a ∧ a % 10 ≠ 0 := by
      rcases hcanon with ⟨rfl, rfl⟩ | h
      · omega
      · exact h
    congr 1
    have hval : a / 10 ^ (-s).toNat * 10 ^ (-s).toNat + a % 10 ^ (-s).toNat = a := by
      rw [Nat.mul_comm]
      exact Nat.div_add_mod a (10 ^ (-s).toNat)
    rw [hval]
    unfold canonDec
    rw [if_neg (decSign_ne_zero neg (by omega))]
    rw [decSign_natAbs, stripTens_eq_self ha.1 ha.2]
    dsimp only
    rw [sign_if_eq neg a a ha.1]
    congr 1
    omega

/-- Parsing the printed form of a canonical decimal recovers it exactly. -/
theorem floatParse?_floatChars (d : Dec) (hwf : DecWF d) :
    floatParse? (floatChars d) = some d := by
  have hcanon : (d.m.natAbs = 0 ∧ d.s = 0) ∨ (0 < d.m.natAbs ∧ d.m.natAbs % 10 ≠ 0) := by
    rcases hwf with ⟨h1, h2⟩ | ⟨h1, h2⟩
    · left
      rw [h1]
      exact ⟨rfl, h2⟩
    · right
      constructor
      · exact Int.natAbs_pos.mpr h1
      · intro hcontr
        exact h2 (by omega)
  unfold floatChars
  by_cases hneg : d.m < 0
  · rw [if_pos hneg]
    show floatParse? ('-' :: floatBodyChars d.m.natAbs d.s) = some d
    simp only [floatParse?]
    rw [if_pos (by trivial), floatParseCore_body true _ _ hcanon]
    have hm : decSign true d.m.natAbs = d.m := by
      unfold decSign
      rw [if_pos rfl]
      omega
    rw [hm]
  · rw [if_neg hneg, List.nil_append]
    have hbody : ∃ c l, floatBodyChars d.m.natAbs d.s = c :: l ∧ isDigitChar c = true := by
      unfold floatBodyChars
      by_cases hs : 0 ≤ d.s
      · rw [if_pos hs]
        rcases hnc : natChars (d.m.natAbs * 10 ^ d.s.toNat) with _ | ⟨c, l⟩
        · exact absurd hnc (natChars_ne_nil _)
        · refine ⟨c, l ++ ['.', '0'], rfl, ?_⟩
          have := natChars_head_digit (d.m.natAbs * 10 ^ d.s.toNat)
          rw [hnc] at this
          exact this c rfl
      · rw [if_neg hs]
        rcases hnc : natChars (d.m.natAbs / 10 ^ (-d.s).toNat) with _ | ⟨c, l⟩
        · exact absurd hnc (natChars_ne_nil _)
        · refine ⟨c, l ++ '.' :: padDigits (-d.s).toNat (d.m.natAbs % 10 ^ (-d.s).toNat),
            rfl, ?_⟩
          have := natChars_head_digit (d.m.natAbs / 10 ^ (-d.s).toNat)
          rw [hnc] at this
          exact this c rfl
    obtain ⟨c, l, hb, hcd⟩ := hbody
    rw [hb]
    simp only [floatParse?]
    have hc1 : ¬c = '-' := by
      intro hcontr; subst hcontr; cases hcd
    have hc2 : ¬c = '+' := by
      intro hcontr; subst hcontr; cases hcd
    rw [if_neg hc1, if_neg hc2, ← hb, floatParseCore_body false _ _ hcanon]
    have hm : decSign false d.m.natAbs = d.m := by
      unfold decSign
      rw [if_neg (by simp : ¬(false = true))]
      omega
    rw [hm]

theorem dot_digitsVal?_none {cs : List Char} (h : '.' ∈ cs) : digitsVal? cs = none := by
  unfold digitsVal?
  rw [if_neg]
  intro hcontr
  rw [List.all_eq_true] at hcontr
  exact absurd (hcontr.2 '.' h) (by decide)

theorem dot_mem_floatBodyChars (a : ℕ) (s : ℤ) : '.' ∈ floatBodyChars a s := by
  unfold floatBodyChars
  by_cases hs : 0 ≤ s
  · rw [if_pos hs]; simp
  · rw [if_neg hs]; simp

/-- A printed float never parses back as an int: it contains a dot. -/
theorem intParse?_floatChars (d : Dec) : intParse? (floatChars d) = none := by
  unfold floatChars
  by_cases hneg : d.m < 0
  · rw [if_pos hneg]
    show intParse? ('-' :: floatBodyChars d.m.natAbs d.s) = none
    simp only [intParse?]
    rw [if_pos (by trivial), dot_digitsVal?_none (dot_mem_floatBodyChars _ _)]
    rfl
  · rw [if_neg hneg, List.nil_append]
    rcases hb : floatBodyChars d.m.natAbs d.s with _ | ⟨c, l⟩
    · rfl
    · have hdot := dot_mem_floatBodyChars d.m.natAbs d.s
      rw [hb] at hdot
      simp only [intParse?]
      by_cases hc1 : c = '-'
      · rw [if_pos hc1]
        have hdl : '.' ∈ l := by
          rcases List.mem_cons.mp hdot with h1 | h2
          · rw [hc1] at h1; exact absurd h1 (by decide)
          · exact h2
        rw [dot_digitsVal?_none hdl]
        rfl
      · rw [if_neg hc1]
        by_cases hc2 : c = '+'
        · rw [if_pos hc2]
          have hdl : '.' ∈ l := by
            rcases List.mem_cons.mp hdot with h1 | h2
            · rw [hc2] at h1; exact absurd h1 (by decide)
            · exact h2
          rw [dot_digitsVal?_none hdl]
          rfl
        · rw [if_neg hc2, dot_digitsVal?_none hdot]
          rfl

/-- Whitespace characters of the tokenizer regex `\s` (the ASCII ones; the
serializer only ever emits a space and a newline). -/
def isWsChar (c : Char) : Bool :=
  c == ' ' || c == '\t' || c == '\n' || c == '\r' || c == '\x0b' || c == '\x0c'

/-- Characters a bare-symbol token may contain: the regex `[^\s()"]+`. -/
def isSymChar (c : Char) : Bool :=
  !(isWsChar c) && !(c == '(') && !(c == ')') && !(c == '"')

mutual

/-- The quoted-string body scan of the tokenizer regex
`"[^"\\]*(?:\\.[^"\\]*)*"`, starting just after the opening quote: plain
characters and backslash-escape pairs up to the closing quote.  Returns the
token characters after the opening quote (closing quote included) and the
remaining input, or `none` when no closing quote is reachable. -/
def matchQuoted : List Char → Option (List Char × List Char)
  | [] => none
  | c :: cs =>
    if c == '"' then some (['"'], cs)
    else if c == '\\' then Option.map (fun p => (c :: p.1, p.2)) (matchQuotedEsc cs)
    else Option.map (fun p => (c :: p.1, p.2)) (matchQuoted cs)

/-- The character after a backslash: consumed by the regex `\\.`, which does
not match a newline. -/
def matchQuotedEsc : List Char → Option (List Char × List Char)
  | [] => none
  | d :: cs2 =>
    if d == '\n' then none
    else Option.map (fun p => (d :: p.1, p.2)) (matchQuoted cs2)

end

theorem matchQuoted_cons (c : Char) (cs : List Char) :
    matchQuoted (c :: cs) =
      if (c == '"') = true then some (['"'], cs)
      else if (c == '\\') = true then Option.map (fun p => (c :: p.1, p.2)) (matchQuotedEsc cs)
      else Option.map (fun p => (c :: p.1, p.2)) (matchQuoted cs) := by
  rw [matchQuoted]

theorem matchQuotedEsc_cons (d : Char) (cs2 : List Char) :
    matchQuotedEsc (d :: cs2) =
      if (d == '\n') = true then none
      else Option.map (fun p => (d :: p.1, p.2)) (matchQuoted cs2) := by
  rw [matchQuotedEsc]

mutual

theorem matchQuoted_length : ∀ (cs : List Char) (tok rest : List Char),
    matchQuoted cs = some (tok, rest) → tok.length + rest.length = cs.length ∧ 0 < tok.length
  | [] => by intro tok rest h; cases h
  | c :: cs' => by
    intro tok rest h
    unfold matchQuoted at h
    by_cases hq : c == '"'
    · rw [if_pos hq] at h
      injection h with h
      rw [Prod.mk.injEq] at h
      obtain ⟨h1, h2⟩ := h
      subst h1
      subst h2
      simp only [List.length_cons, List.length_nil]
      omega
    · rw [if_neg hq] at h
      by_cases hb : c == '\\'
      · rw [if_pos hb] at h
        rcases hm : matchQuotedEsc cs' with _ | ⟨tok2, rest2⟩ <;> rw [hm] at h
        · cases h
        · simp only [Option.map_some'] at h
          injection h with h
          rw [Prod.mk.injEq] at h
          obtain ⟨h1, h2⟩ := h
          subst h1
          subst h2
          have := matchQuotedEsc_length cs' tok2 rest2 hm
          simp only [List.length_cons]
          omega
      · rw [if_neg hb] at h
        rcases hm : matchQuoted cs' with _ | ⟨tok2, rest2⟩ <;> rw [hm] at h
        · cases h
        · simp only [Option.map_some'] at h
          injection h with h
          rw [Prod.mk.injEq] at h
          obtain ⟨h1, h2⟩ := h
          subst h1
          subst h2
          have := matchQuoted_length cs' tok2 rest2 hm
          simp only [List.length_cons]
          omega

theorem matchQuotedEsc_length : ∀ (cs : List Char) (tok rest : List Char),
    matchQuotedEsc cs = some (tok, rest) → tok.length + rest.length = cs.length ∧ 0 < tok.length
  | [] => by intro tok rest h; cases h
  | d :: cs2 => by
    intro tok rest h
    unfold matchQuotedEsc at h
    by_cases hn : d == '\n'
    · rw [if_pos hn] at h
      cases h
    · rw [if_neg hn] at h
      rcases hm : matchQuoted cs2 with _ | ⟨tok2, rest2⟩ <;> rw [hm] at h
      · cases h
      · simp only [Option.map_some'] at h
        injection h with h
        rw [Prod.mk.injEq] at h
        obtain ⟨h1, h2⟩ := h
        subst h1
        subst h2
        have := matchQuoted_length cs2 tok2 rest2 hm
        simp only [List.length_cons]
        omega

end

theorem length_dropWhile_le (p : Char → Bool) (l : List Char) :
    (l.dropWhile p).length ≤ l.length := by
  induction l with
  | nil => simp
  | cons c l ih =>
    rw [List.dropWhile_cons]
    by_cases h : p c
    · rw [if_pos h]
      exact le_trans ih (by simp)
    · rw [if_neg h]

/-- The tokenizer: the regex `("..."|\(|\)|"|[^\s()"]+)` scanned with
`findall`.  Characters that cannot start a match (only whitespace) are
skipped; a quote opens a quoted-string token when a closing quote is
reachable and otherwise stands alone; any other non-paren character starts a
maximal bare-symbol run. -/
def tokenize (cs : List Char) : List (List Char) :=
  match cs with
  | [] => []
  | c :: cs' =>
    if isWsChar c then tokenize cs'
    else if c == '(' then ['('] :: tokenize cs'
    else if c == ')' then [')'] :: tokenize cs'
    else if c == '"' then
      match hm : matchQuoted cs' with
      | some (tok, rest) => ('"' :: tok) :: tokenize rest
      | none => ['"'] :: tokenize cs'
    else (c :: cs'.takeWhile isSymChar) :: tokenize (cs'.dropWhile isSymChar)
termination_by cs.length
decreasing_by
  · simp only [List.length_cons]; omega
  · simp only [List.length_cons]; omega
  · simp only [List.length_cons]; omega
  · simp only [List.length_cons]
    have := matchQuoted_length _ _ _ (by assumption : matchQuoted _ = some (_, _))
    omega
  · simp only [List.length_cons]; omega
  · simp only [List.length_cons]
    exact Nat.lt_succ_of_le (length_dropWhile_le _ _)

/-- The generic parse tree.  Python's `Expr` carries a tag name and a list of
children that are ints, floats, strings (quoted tokens keep their quotes) or
sub-nodes; `from_tokens` can also return a bare atom, so atoms are cases of
the same type.  The cached `_known_attrs` / `_more_than_once` sets are
derived from `data` on demand below, which matches `parsed()` having been
called after construction.  The specialized Python subclasses (`Pad`,
`Footprint`, `Drawable`, ...) share this exact data layout; the subclass
choice is a function of the tag and parent tags and adds behaviour only, so
it is not part of the tree value. -/
inductive Expr where
  | int (n : ℤ)
  | float (d : Dec)
  | str (s : String)
  | node (name : String) (data : List Expr)

mutual

def decEqExpr : (a b : Expr) → Decidable (a = b)
  | Expr.int n, Expr.int m =>
    match decEq n m with
    | isTrue h => isTrue (by rw [h])
    | isFalse h => isFalse (by intro hc; injection hc with h2; exact h h2)
  | Expr.int _, Expr.float _ => isFalse (by intro hc; cases hc)
  | Expr.int _, Expr.str _ => isFalse (by intro hc; cases hc)
  | Expr.int _, Expr.node _ _ => isFalse (by intro hc; cases hc)
  | Expr.float _, Expr.int _ => isFalse (by intro hc; cases hc)
  | Expr.float d1, Expr.float d2 =>
    match decEq d1 d2 with
    | isTrue h => isTrue (by rw [h])
    | isFalse h => isFalse (by intro hc; injection hc with h2; exact h h2)
  | Expr.float _, Expr.str _ => isFalse (by intro hc; cases hc)
  | Expr.float _, Expr.node _ _ => isFalse (by intro hc; cases hc)
  | Expr.str _, Expr.int _ => isFalse (by intro hc; cases hc)
  | Expr.str _, Expr.float _ => isFalse (by intro hc; cases hc)
  | Expr.str s1, Expr.str s2 =>
    match decEq s1 s2 with
    | isTrue h => isTrue (by rw [h])
    | isFalse h => isFalse (by intro hc; injection hc with h2; exact h h2)
  | Expr.str _, Expr.node _ _ => isFalse (by intro hc; cases hc)
  | Expr.node _ _, Expr.int _ => isFalse (by intro hc; cases hc)
  | Expr.node _ _, Expr.float _ => isFalse (by intro hc; cases hc)
  | Expr.node _ _, Expr.str _ => isFalse (by intro hc; cases hc)
  | Expr.node n1 d1, Expr.node n2 d2 =>
    match decEq n1 n2, decEqExprList d1 d2 with
    | isTrue h1, isTrue h2 => isTrue (by rw [h1, h2])
    | isFalse h1, _ => isFalse (by intro hc; injection hc with ha hb; exact h1 ha)
    | isTrue _, isFalse h2 => isFalse (by intro hc; injection hc with ha hb; exact h2 hb)

def decEqExprList : (xs ys : List Expr) → Decidable (xs = ys)
  | [], [] => isTrue rfl
  | [], _ :: _ => isFalse (by intro hc; cases hc)
  | _ :: _, [] => isFalse (by intro hc; cases hc)
  | x :: xs, y :: ys =>
    match decEqExpr x y, decEqExprList xs ys with
    | isTrue h1, isTrue h2 => isTrue (by rw [h1, h2])
    | isFalse h1, _ => isFalse (by intro hc; injection hc with ha hb; exact h1 ha)
    | isTrue _, isFalse h2 => isFalse (by intro hc; injection hc with ha hb; exact h2 hb)

end

instance : DecidableEq Expr := decEqExpr

/-- Atom classification of `from_tokens`: `int(token)` else `float(token)`
else `Symbol(token)`. -/
def atomize (t : List Char) : Expr :=
  match intParse? t with
  | some n => Expr.int n
  | none =>
    match floatParse? t with
    | some q => Expr.float q
    | none => Expr.str (String.mk t)

mutual
/-- Embedding of `from_tokens`, with explicit recursion fuel (the Python
recursion needs none; every use below supplies enough fuel for the token
list).  On `(` the next token unconditionally becomes the node name, children
are parsed until a `)`, running out of tokens is the Python `IndexError`; a
stray `)` is a `SyntaxError`; any other token is an atom.  The `parent` and
`grand_parent` arguments of the source only select the behaviour subclass,
which does not affect the tree value, so they are omitted. -/
def fromTokensF : ℕ → List (List Char) → Except String (Expr × List (List Char))
  | 0, _ => Except.error "fuel exhausted"
  | _ + 1, [] => Except.error "unexpected EOF"
  | fuel + 1, t :: ts =>
    if t = ['('] then
      match ts with
      | [] => Except.error "IndexError: token list index out of range"
      | typ :: ts2 =>
        match parseChildrenF fuel ts2 with
        | Except.ok (children, rest) => Except.ok (Expr.node (String.mk typ) children, rest)
        | Except.error e => Except.error e
    else if t = [')'] then Except.error "unexpected )"
    else Except.ok (atomize t, ts)

/-- The `while tokens[index] != ')'` child loop of `from_tokens`. -/
def parseChildrenF : ℕ → List (List Char) → Except String (List Expr × List (List Char))
  | 0, _ => Except.error "fuel exhausted"
  | _ + 1, [] => Except.error "IndexError: token list index out of range"
  | fuel + 1, t :: ts =>
    if t = [')'] then Except.ok ([], ts)
    else
      match fromTokensF fuel (t :: ts) with
      | Except.ok (e, rest) =>
        match parseChildrenF fuel rest with
        | Except.ok (es, rest2) => Except.ok (e :: es, rest2)
        | Except.error err => Except.error err
      | Except.error err => Except.error err
end

/-- Embedding of `from_str` on a character list: tokenize, then parse one
expression from index 0, ignoring any trailing tokens as the source does. -/
def fromStrL (cs : List Char) : Except String Expr :=
  match fromTokensF ((tokenize cs).length + 1) (tokenize cs) with
  | Except.ok (e, _) => Except.ok e
  | Except.error err => Except.error err

/-- Embedding of `from_str`. -/
def fromStr (s : String) : Except String Expr := fromStrL s.data

/-- Python `" ".join`. -/
def joinSpace : List (List Char) → List Char
  | [] => []
  | [x] => x
  | x :: xs => x ++ ' ' :: joinSpace xs

mutual
/-- Embedding of `Expr.__str__`: `\n({name} {children joined by spaces})`;
atoms print as Python `str` of their value, strings verbatim. -/
def exprChars : Expr → List Char
  | Expr.int n => intChars n
  | Expr.float d => floatChars d
  | Expr.str s => s.data
  | Expr.node name data =>
    '\n' :: '(' :: (name.data ++ ' ' :: (joinSpace (exprCharsList data) ++ [')']))

def exprCharsList : List Expr → List (List Char)
  | [] => []
  | e :: es => exprChars e :: exprCharsList es
end

/-- Embedding of `str(expr)`. -/
def serialize (e : Expr) : String := String.mk (exprChars e)

mutual
/-- The token list a serialized tree tokenizes back to. -/
def flatTokens : Expr → List (List Char)
  | Expr.int n => [intChars n]
  | Expr.float d => [floatChars d]
  | Expr.str s => [s.data]
  | Expr.node name data => ['('] :: name.data :: (flatList data ++ [[')']])

def flatList : List Expr → List (List Char)
  | [] => []
  | e :: es => flatTokens e ++ flatList es
end

/-- A complete quoted-string token: an opening quote and a body the quoted
scan consumes entirely. -/
def QuotedTok (t : List Char) : Prop :=
  ∃ body, t = '"' :: body ∧ matchQuoted body = some (body, [])

/-- A nonempty bare-symbol token. -/
def SymTok (t : List Char) : Prop := t ≠ [] ∧ t.all isSymChar = true

/-- Token shapes that may stand as a node name (any token but a lone
quote; parens can become names, e.g. parsing `((a)` yields a node named
`(`). -/
def NameTok (t : List Char) : Prop := t = ['('] ∨ t = [')'] ∨ QuotedTok t ∨ SymTok t

/-- Invariant of a string atom produced by parsing: its token failed the int
and float conversions and is a complete quoted or bare-symbol token. -/
def StrTok (t : List Char) : Prop :=
  intParse? t = none ∧ floatParse? t = none ∧ (QuotedTok t ∨ SymTok t)

/-- Trees that parsing well-formed input can produce: float atoms are
canonical decimals, string atoms remember that their token shapes survive
re-tokenization, node names are tokens other than a lone quote. -/
inductive WF : Expr → Prop where
  | int : ∀ n : ℤ, WF (Expr.int n)
  | float : ∀ d : Dec, DecWF d → WF (Expr.float d)
  | str : ∀ s : String, StrTok s.data → WF (Expr.str s)
  | node : ∀ (name : String) (data : List Expr), NameTok name.data →
      (∀ c ∈ data, WF c) → WF (Expr.node name data)

theorem tokenize_nil : tokenize [] = [] := by
  rw [tokenize]

theorem tokenize_ws {c : Char} (h : isWsChar c = true) (r : List Char) :
    tokenize (c :: r) = tokenize r := by
  rw [tokenize, if_pos h]

theorem tokenize_lparen (r : List Char) : tokenize ('(' :: r) = ['('] :: tokenize r := by
  rw [tokenize, if_neg (by decide), if_pos (by decide)]

theorem tokenize_rparen (r : List Char) : tokenize (')' :: r) = [')'] :: tokenize r := by
  rw [tokenize, if_neg (by decide), if_neg (by decide), if_pos (by decide)]

theorem tokenize_quote {cs tok rest : List Char} (h : matchQuoted cs = some (tok, rest)) :
    tokenize ('"' :: cs) = ('"' :: tok) :: tokenize rest := by
  rw [tokenize, if_neg (by decide), if_neg (by decide), if_neg (by decide), if_pos (by decide)]
  split
  · rename_i tok2 rest2 heq
    rw [h] at heq
    injection heq with heq
    rw [Prod.mk.injEq] at heq
    obtain ⟨h1, h2⟩ := heq
    subst h1
    subst h2
    rfl
  · rename_i heq
    rw [h] at heq
    cases heq

theorem tokenize_quote_none {cs : List Char} (h : matchQuoted cs = none) :
    tokenize ('"' :: cs) = ['"'] :: tokenize cs := by
  rw [tokenize, if_neg (by decide), if_neg (by decide), if_neg (by decide), if_pos (by decide)]
  split
  · rename_i tok2 rest2 heq
    rw [h] at heq
    cases heq
  · rfl

theorem isSymChar_spec {c : Char} (hc : isSymChar c = true) :
    isWsChar c = false ∧ (c == '(') = false ∧ (c == ')') = false ∧ (c == '"') = false := by
  unfold isSymChar at hc
  simp only [Bool.and_eq_true, Bool.not_eq_true'] at hc
  exact ⟨hc.1.1.1, hc.1.1.2, hc.1.2, hc.2⟩

theorem tokenize_sym_start {c : Char} (hc : isSymChar c = true) (r : List Char) :
    tokenize (c :: r) = (c :: r.takeWhile isSymChar) :: tokenize (r.dropWhile isSymChar) := by
  obtain ⟨h1, h2, h3, h4⟩ := isSymChar_spec hc
  rw [tokenize, if_neg (by rw [h1]; exact Bool.false_ne_true),
    if_neg (by rw [h2]; exact Bool.false_ne_true), if_neg (by rw [h3]; exact Bool.false_ne_true),
    if_neg (by rw [h4]; exact Bool.false_ne_true)]

mutual

theorem matchQuoted_append : ∀ (cs : List Char) (tok rest : List Char),
    matchQuoted cs = some (tok, rest) → ∀ r, matchQuoted (cs ++ r) = some (tok, rest ++ r)
  | [] => by intro tok rest h; cases h
  | c :: cs' => by
    intro tok rest h r
    rw [matchQuoted_cons] at h
    rw [List.cons_append, matchQuoted_cons]
    by_cases hq : c == '"'
    · rw [if_pos hq] at h ⊢
      injection h with h
      rw [Prod.mk.injEq] at h
      obtain ⟨h1, h2⟩ := h
      subst h1
      subst h2
      rfl
    · rw [if_neg hq] at h ⊢
      by_cases hb : c == '\\'
      · rw [if_pos hb] at h ⊢
        rcases hm : matchQuotedEsc cs' with _ | ⟨tok2, rest2⟩ <;> rw [hm] at h
        · cases h
        · simp only [Option.map_some'] at h
          injection h with h
          rw [Prod.mk.injEq] at h
          obtain ⟨h1, h2⟩ := h
          subst h1
          subst h2
          rw [matchQuotedEsc_append cs' tok2 rest2 hm r]
          rfl
      · rw [if_neg hb] at h ⊢
        rcases hm : matchQuoted cs' with _ | ⟨tok2, rest2⟩ <;> rw [hm] at h
        · cases h
        · simp only [Option.map_some'] at h
          injection h with h
          rw [Prod.mk.injEq] at h
          obtain ⟨h1, h2⟩ := h
          subst h1
          subst h2
          rw [matchQuoted_append cs' tok2 rest2 hm r]
          rfl

theorem matchQuotedEsc_append : ∀ (cs : List Char) (tok rest : List Char),
    matchQuotedEsc cs = some (tok, rest) → ∀ r, matchQuotedEsc (cs ++ r) = some (tok, rest ++ r)
  | [] => by intro tok rest h; cases h
  | d :: cs2 => by
    intro tok rest h r
    rw [matchQuotedEsc_cons] at h
    rw [List.cons_append, matchQuotedEsc_cons]
    by_cases hn : d == '\n'
    · rw [if_pos hn] at h
      cases h
    · rw [if_neg hn] at h ⊢
      rcases hm : matchQuoted cs2 with _ | ⟨tok2, rest2⟩ <;> rw [hm] at h
      · cases h
      · simp only [Option.map_some'] at h
        injection h with h
        rw [Prod.mk.injEq] at h
        obtain ⟨h1, h2⟩ := h
        subst h1
        subst h2
        rw [matchQuoted_append cs2 tok2 rest2 hm r]
        rfl

end

mutual

theorem matchQuoted_self : ∀ (cs : List Char) (tok rest : List Char),
    matchQuoted cs = some (tok, rest) → matchQuoted tok = some (tok, [])
  | [] => by intro tok rest h; cases h
  | c :: cs' => by
    intro tok rest h
    rw [matchQuoted_cons] at h
    by_cases hq : c == '"'
    · rw [if_pos hq] at h
      injection h with h
      rw [Prod.mk.injEq] at h
      obtain ⟨h1, h2⟩ := h
      subst h1
      rfl
    · rw [if_neg hq] at h
      by_cases hb : c == '\\'
      · rw [if_pos hb] at h
        rcases hm : matchQuotedEsc cs' with _ | ⟨tok2, rest2⟩ <;> rw [hm] at h
        · cases h
        · simp only [Option.map_some'] at h
          injection h with h
          rw [Prod.mk.injEq] at h
          obtain ⟨h1, h2⟩ := h
          subst h1
          have hself := matchQuotedEsc_self cs' tok2 rest2 hm
          rw [matchQuoted_cons, if_neg hq, if_pos hb, hself]
          rfl
      · rw [if_neg hb] at h
        rcases hm : matchQuoted cs' with _ | ⟨tok2, rest2⟩ <;> rw [hm] at h
        · cases h
        · simp only [Option.map_some'] at h
          injection h with h
          rw [Prod.mk.injEq] at h
          obtain ⟨h1, h2⟩ := h
          subst h1
          have hself := matchQuoted_self cs' tok2 rest2 hm
          rw [matchQuoted_cons, if_neg hq, if_neg hb, hself]
          rfl

theorem matchQuotedEsc_self : ∀ (cs : List Char) (tok rest : List Char),
    matchQuotedEsc cs = some (tok, rest) → matchQuotedEsc tok = some (tok, [])
  | [] => by intro tok rest h; cases h
  | d :: cs2 => by
    intro tok rest h
    rw [matchQuotedEsc_cons] at h
    by_cases hn : d == '\n'
    · rw [if_pos hn] at h
      cases h
    · rw [if_neg hn] at h
      rcases hm : matchQuoted cs2 with _ | ⟨tok2, rest2⟩ <;> rw [hm] at h
      · cases h
      · simp only [Option.map_some'] at h
        injection h with h
        rw [Prod.mk.injEq] at h
        obtain ⟨h1, h2⟩ := h
        subst h1
        have hself := matchQuoted_self cs2 tok2 rest2 hm
        rw [matchQuotedEsc_cons, if_neg hn, hself]
        rfl

end

theorem tokenize_sym_append {t : List Char} (h : SymTok t) {r : List Char}
    (hr : ∀ c, r.head? = some c → isSymChar c = false) :
    tokenize (t ++ r) = t :: tokenize r := by
  obtain ⟨hne, hall⟩ := h
  cases t with
  | nil => exact absurd rfl hne
  | cons c t' =>
    rw [List.all_cons, Bool.and_eq_true] at hall
    show tokenize (c :: (t' ++ r)) = _
    rw [tokenize_sym_start hall.1, takeWhile_append_all hall.2, dropWhile_append_all hall.2]
    have htw : r.takeWhile isSymChar = [] := by
      cases r with
      | nil => rfl
      | cons c' r' =>
        rw [List.takeWhile_cons_of_neg]
        rw [hr c' rfl]
        exact Bool.false_ne_true
    have hdw : r.dropWhile isSymChar = r := by
      cases r with
      | nil => rfl
      | cons c' r' =>
        rw [List.dropWhile_cons_of_neg]
        rw [hr c' rfl]
        exact Bool.false_ne_true
    rw [htw, hdw, List.append_nil]

theorem tokenize_quoted_append {t : List Char} (h : QuotedTok t) (r : List Char) :
    tokenize (t ++ r) = t :: tokenize r := by
  obtain ⟨body, rfl, hm⟩ := h
  show tokenize ('"' :: (body ++ r)) = _
  rw [tokenize_quote (by simpa using matchQuoted_append body body [] hm r)]

theorem all_takeWhile (p : Char → Bool) (l : List Char) : (l.takeWhile p).all p = true := by
  induction l with
  | nil => rfl
  | cons c l ih =>
    by_cases h : p c
    · rw [List.takeWhile_cons_of_pos h, List.all_cons, Bool.and_eq_true]
      exact ⟨h, ih⟩
    · rw [List.takeWhile_cons_of_neg h]
      rfl

/-- Shapes a token produced by the tokenizer can have. -/
def ProducedTok (t : List Char) : Prop :=
  t = ['('] ∨ t = [')'] ∨ QuotedTok t ∨ t = ['"'] ∨ SymTok t

theorem tokenize_producedTok (cs : List Char) : ∀ t ∈ tokenize cs, ProducedTok t := by
  generalize hn : cs.length = n
  induction n using Nat.strong_induction_on generalizing cs with
  | _ n ih =>
  cases cs with
  | nil =>
    intro t ht
    rw [tokenize_nil] at ht
    cases ht
  | cons c cs' =>
    have hlt : cs'.length < n := by rw [← hn]; simp
    by_cases hws : isWsChar c = true
    · rw [tokenize_ws hws]
      exact ih cs'.length hlt cs' rfl
    · by_cases hlp : c = '('
      · subst hlp
        rw [tokenize_lparen]
        intro t ht
        rcases List.mem_cons.mp ht with rfl | hmem
        · exact Or.inl rfl
        · exact ih cs'.length hlt cs' rfl t hmem
      · by_cases hrp : c = ')'
        · subst hrp
          rw [tokenize_rparen]
          intro t ht
          rcases List.mem_cons.mp ht with rfl | hmem
          · exact Or.inr (Or.inl rfl)
          · exact ih cs'.length hlt cs' rfl t hmem
        · by_cases hq : c = '"'
          · subst hq
            rcases hm : matchQuoted cs' with _ | ⟨tok, rest⟩
            · rw [tokenize_quote_none hm]
              intro t ht
              rcases List.mem_cons.mp ht with rfl | hmem
              · exact Or.inr (Or.inr (Or.inr (Or.inl rfl)))
              · exact ih cs'.length hlt cs' rfl t hmem
            · rw [tokenize_quote hm]
              intro t ht
              rcases List.mem_cons.mp ht with rfl | hmem
              · exact Or.inr (Or.inr (Or.inl ⟨tok, rfl, matchQuoted_self cs' tok rest hm⟩))
              · have hlen := matchQuoted_length cs' tok rest hm
                have hrl : rest.length < n := by
                  rw [← hn]
                  simp only [List.length_cons]
                  omega
                exact ih rest.length hrl rest rfl t hmem
          · have hsym : isSymChar c = true := by
              unfold isSymChar
              rw [Bool.and_eq_true, Bool.and_eq_true, Bool.and_eq_true]
              refine ⟨⟨⟨?_, ?_⟩, ?_⟩, ?_⟩ <;> rw [Bool.not_eq_true']
              · rw [Bool.eq_false_iff]
                exact hws
              · rw [beq_eq_false_iff_ne]
                exact hlp
              · rw [beq_eq_false_iff_ne]
                exact hrp
              · rw [beq_eq_false_iff_ne]
                exact hq
            rw [tokenize_sym_start hsym]
            intro t ht
            rcases List.mem_cons.mp ht with rfl | hmem
            · refine Or.inr (Or.inr (Or.inr (Or.inr ⟨by simp, ?_⟩)))
              rw [List.all_cons, Bool.and_eq_true]
              exact ⟨hsym, all_takeWhile isSymChar cs'⟩
            · have hdl := length_dropWhile_le isSymChar cs'
              have hdn : (cs'.dropWhile isSymChar).length < n := by
                rw [← hn]
                simp only [List.length_cons]
                omega
              exact ih (cs'.dropWhile isSymChar).length hdn _ rfl t hmem

theorem digitChar_isSym {d : ℕ} (h : d < 10) : isSymChar (Char.ofNat (48 + d)) = true := by
  interval_cases d <;> decide

theorem natCharsAux_all_sym (fuel n : ℕ) : (natCharsAux fuel n).all isSymChar = true := by
  induction fuel generalizing n with
  | zero => rfl
  | succ fuel ih =>
    unfold natCharsAux
    by_cases h : n = 0
    · rw [if_pos h]; rfl
    · rw [if_neg h, List.all_append, ih]
      have : isSymChar (Char.ofNat (48 + n % 10)) = true :=
        digitChar_isSym (Nat.mod_lt n (by norm_num))
      simp [this]

theorem natChars_all_sym (n : ℕ) : (natChars n).all isSymChar = true := by
  unfold natChars
  by_cases h : n = 0
  · rw [if_pos h]; decide
  · rw [if_neg h]
    exact natCharsAux_all_sym n n

theorem intChars_symTok (z : ℤ) : SymTok (intChars z) := by
  unfold intChars
  by_cases h : z < 0
  · rw [if_pos h]
    refine ⟨by simp, ?_⟩
    rw [List.all_cons, Bool.and_eq_true]
    exact ⟨by decide, natChars_all_sym _⟩
  · rw [if_neg h]
    exact ⟨natChars_ne_nil _, natChars_all_sym _⟩

theorem padDigits_all_sym (k n : ℕ) : (padDigits k n).all isSymChar = true := by
  unfold padDigits
  rw [List.all_append, Bool.and_eq_true]
  constructor
  · rw [List.all_eq_true]
    intro c hc
    rw [List.eq_of_mem_replicate hc]
    decide
  · exact natChars_all_sym n

theorem floatChars_symTok (d : Dec) : SymTok (floatChars d) := by
  unfold floatChars floatBodyChars
  have hbody : ∀ hs : Bool, (if 0 ≤ d.s then natChars (d.m.natAbs * 10 ^ d.s.toNat) ++ ['.', '0']
      else natChars (d.m.natAbs / 10 ^ (-d.s).toNat) ++
        '.' :: padDigits (-d.s).toNat (d.m.natAbs % 10 ^ (-d.s).toNat)).all isSymChar = true := by
    intro _
    by_cases hs : 0 ≤ d.s
    · rw [if_pos hs, List.all_append, Bool.and_eq_true]
      exact ⟨natChars_all_sym _, by decide⟩
    · rw [if_neg hs, List.all_append, Bool.and_eq_true]
      refine ⟨natChars_all_sym _, ?_⟩
      rw [List.all_cons, Bool.and_eq_true]
      exact ⟨by decide, padDigits_all_sym _ _⟩
  constructor
  · by_cases hneg : d.m < 0
    · rw [if_pos hneg]
      simp
    · rw [if_neg hneg, List.nil_append]
      by_cases hs : 0 ≤ d.s
      · rw [if_pos hs]
        simp [natChars_ne_nil]
      · rw [if_neg hs]
        simp [natChars_ne_nil]
  · rw [List.all_append, Bool.and_eq_true]
    constructor
    · by_cases hneg : d.m < 0
      · rw [if_pos hneg]; decide
      · rw [if_neg hneg]; decide
    · exact hbody true

theorem symTok_ne_parens {t : List Char} (h : SymTok t) :
    t ≠ ['('] ∧ t ≠ [')'] := by
  constructor
  · intro hcontr
    have := h.2
    rw [hcontr] at this
    cases this
  · intro hcontr
    have := h.2
    rw [hcontr] at this
    cases this

theorem tokenize_spine (data : List Expr)
    (hIH : ∀ c ∈ data, ∀ r : List Char, (∀ ch, r.head? = some ch → isSymChar ch = false) →
      tokenize (exprChars c ++ r) = flatTokens c ++ tokenize r) :
    ∀ r, tokenize (joinSpace (exprCharsList data) ++ ')' :: r) =
      flatList data ++ [')'] :: tokenize r := by
  induction data with
  | nil =>
    intro r
    show tokenize (joinSpace [] ++ ')' :: r) = flatList [] ++ [')'] :: tokenize r
    rw [show joinSpace [] = ([] : List Char) from rfl, List.nil_append, tokenize_rparen]
    rfl
  | cons c cs ih =>
    intro r
    cases cs with
    | nil =>
      show tokenize (joinSpace [exprChars c] ++ ')' :: r) = _
      rw [show joinSpace [exprChars c] = exprChars c from rfl]
      rw [hIH c (List.mem_cons_self c []) (')' :: r)
        (by intro ch hch; simp only [List.head?_cons, Option.some.injEq] at hch; subst hch; decide)]
      rw [tokenize_rparen]
      show _ = (flatTokens c ++ flatList []) ++ [')'] :: tokenize r
      rw [show flatList ([] : List Expr) = [] from rfl, List.append_nil]
    | cons c2 cs2 =>
      show tokenize (joinSpace (exprChars c :: exprCharsList (c2 :: cs2)) ++ ')' :: r) = _
      rw [show exprCharsList (c2 :: cs2) = exprChars c2 :: exprCharsList cs2 from rfl]
      rw [show joinSpace (exprChars c :: exprChars c2 :: exprCharsList cs2) =
        exprChars c ++ ' ' :: joinSpace (exprChars c2 :: exprCharsList cs2) from rfl]
      rw [List.append_assoc, List.cons_append]
      rw [hIH c (List.mem_cons_self c _) _
        (by intro ch hch; simp only [List.head?_cons, Option.some.injEq] at hch; subst hch; decide)]
      rw [tokenize_ws (by decide)]
      have ihs := ih (fun x hx => hIH x (List.mem_cons_of_mem c hx)) r
      rw [show exprCharsList (c2 :: cs2) = exprChars c2 :: exprCharsList cs2 from rfl] at ihs
      rw [ihs]
      show _ = (flatTokens c ++ flatList (c2 :: cs2)) ++ [')'] :: tokenize r
      rw [List.append_assoc]

/-- Tokenizing the serialized text of a well-formed tree (followed by any
text that does not continue a symbol run) recovers exactly the flat token
list of the tree. -/
theorem tokenize_exprChars {e : Expr} (hwf : WF e) :
    ∀ r : List Char, (∀ ch, r.head? = some ch → isSymChar ch = false) →
      tokenize (exprChars e ++ r) = flatTokens e ++ tokenize r := by
  induction hwf with
  | int n =>
    intro r hr
    show tokenize (intChars n ++ r) = [intChars n] ++ tokenize r
    rw [tokenize_sym_append (intChars_symTok n) hr]
    rfl
  | float d hd =>
    intro r hr
    show tokenize (floatChars d ++ r) = [floatChars d] ++ tokenize r
    rw [tokenize_sym_append (floatChars_symTok d) hr]
    rfl
  | str s hs =>
    intro r hr
    show tokenize (s.data ++ r) = [s.data] ++ tokenize r
    rcases hs.2.2 with hq | hsym
    · rw [tokenize_quoted_append hq r]
      rfl
    · rw [tokenize_sym_append hsym hr]
      rfl
  | node name data hname hdata ih =>
    intro r hr
    show tokenize (('\n' :: '(' ::
        (name.data ++ ' ' :: (joinSpace (exprCharsList data) ++ [')']))) ++ r) = _
    rw [List.cons_append, List.cons_append, tokenize_ws (by decide), tokenize_lparen,
      List.append_assoc]
    have hrest : tokenize ((' ' :: (joinSpace (exprCharsList data) ++ [')'])) ++ r) =
        flatList data ++ [')'] :: tokenize r := by
      rw [List.cons_append, tokenize_ws (by decide), List.append_assoc,
        show (([')'] : List Char) ++ r) = ')' :: r from rfl]
      exact tokenize_spine data ih r
    have hspace : ∀ ch : Char,
        ((' ' :: (joinSpace (exprCharsList data) ++ [')'])) ++ r).head? = some ch →
          isSymChar ch = false := by
      intro ch hch
      rw [List.cons_append, List.head?_cons] at hch
      injection hch with hch
      subst hch
      decide
    show _ = (['('] :: name.data :: (flatList data ++ [[')']])) ++ tokenize r
    rcases hname with h1 | h1 | h1 | h1
    · rw [h1, List.singleton_append, tokenize_lparen, hrest]
      simp
    · rw [h1, List.singleton_append, tokenize_rparen, hrest]
      simp
    · rw [← List.append_assoc name.data, List.append_assoc,
        tokenize_quoted_append h1, hrest]
      simp
    · rw [← List.append_assoc name.data, List.append_assoc,
        tokenize_sym_append h1 hspace, hrest]
      simp

theorem quotedTok_ne_parens {t : List Char} (h : QuotedTok t) :
    t ≠ ['('] ∧ t ≠ [')'] := by
  obtain ⟨body, rfl, -⟩ := h
  constructor <;> intro hc <;>
    (injection hc with hc1 hc2; exact absurd hc1 (by decide))

theorem atomize_int (z : ℤ) : atomize (intChars z) = Expr.int z := by
  unfold atomize
  rw [intParse?_intChars]

theorem atomize_float (d : Dec) (hwf : DecWF d) : atomize (floatChars d) = Expr.float d := by
  unfold atomize
  rw [intParse?_floatChars, floatParse?_floatChars d hwf]

theorem atomize_str {t : List Char} (h : StrTok t) : atomize t = Expr.str (String.mk t) := by
  unfold atomize
  rw [h.1, h.2.1]

theorem flatTokens_ne_nil (e : Expr) : flatTokens e ≠ [] := by
  cases e <;> simp [flatTokens]

theorem flatTokens_head_ne_rparen {e : Expr} (hwf : WF e) :
    ∀ t, (flatTokens e).head? = some t → t ≠ [')'] := by
  cases hwf with
  | int n =>
    intro t ht
    rw [show flatTokens (Expr.int n) = [intChars n] from rfl, List.head?_cons] at ht
    injection ht with ht
    subst ht
    exact (symTok_ne_parens (intChars_symTok n)).2
  | float d hd =>
    intro t ht
    rw [show flatTokens (Expr.float d) = [floatChars d] from rfl, List.head?_cons] at ht
    injection ht with ht
    subst ht
    exact (symTok_ne_parens (floatChars_symTok d)).2
  | str s hs =>
    intro t ht
    rw [show flatTokens (Expr.str s) = [s.data] from rfl, List.head?_cons] at ht
    injection ht with ht
    subst ht
    rcases hs.2.2 with hqt | hsym
    · exact (quotedTok_ne_parens hqt).2
    · exact (symTok_ne_parens hsym).2
  | node name data hname hdata =>
    intro t ht
    rw [show flatTokens (Expr.node name data) = ['('] :: name.data :: (flatList data ++ [[')']])
      from rfl, List.head?_cons] at ht
    injection ht with ht
    subst ht
    decide

theorem reparseChildren (es : List Expr)
    (hIH : ∀ c ∈ es, ∀ fuel (rest : List (List Char)), (flatTokens c).length ≤ fuel →
      fromTokensF fuel (flatTokens c ++ rest) = Except.ok (c, rest))
    (hhead : ∀ c ∈ es, ∀ t, (flatTokens c).head? = some t → t ≠ [')']) :
    ∀ fuel (rest : List (List Char)), (flatList es).length + 1 ≤ fuel →
      parseChildrenF fuel (flatList es ++ [')'] :: rest) = Except.ok (es, rest) := by
  induction es with
  | nil =>
    intro fuel rest hfuel
    cases fuel with
    | zero => omega
    | succ f =>
      show parseChildrenF (f + 1) (flatList [] ++ [')'] :: rest) = _
      rw [show flatList ([] : List Expr) = [] from rfl, List.nil_append, parseChildrenF,
        if_pos rfl]
  | cons e es ih =>
    intro fuel rest hfuel
    have hlen : (flatList (e :: es)).length = (flatTokens e).length + (flatList es).length := by
      rw [show flatList (e :: es) = flatTokens e ++ flatList es from rfl, List.length_append]
    have hpos : 0 < (flatTokens e).length := List.length_pos.mpr (flatTokens_ne_nil e)
    cases fuel with
    | zero => omega
    | succ f =>
      show parseChildrenF (f + 1) (flatList (e :: es) ++ [')'] :: rest) = _
      rw [show flatList (e :: es) = flatTokens e ++ flatList es from rfl, List.append_assoc]
      cases hflat : flatTokens e with
      | nil => exact absurd hflat (flatTokens_ne_nil e)
      | cons t0 ts0 =>
        rw [List.cons_append, parseChildrenF,
          if_neg (hhead e (List.mem_cons_self e es) t0 (by rw [hflat, List.head?_cons]))]
        have hfe : fromTokensF f (t0 :: (ts0 ++ (flatList es ++ [')'] :: rest))) =
            Except.ok (e, flatList es ++ [')'] :: rest) := by
          rw [show t0 :: (ts0 ++ (flatList es ++ [')'] :: rest)) =
            (t0 :: ts0) ++ (flatList es ++ [')'] :: rest) from rfl, ← hflat]
          refine hIH e (List.mem_cons_self e es) f _ ?_
          omega
        rw [hfe]
        have hce : parseChildrenF f (flatList es ++ [')'] :: rest) = Except.ok (es, rest) := by
          refine ih (fun c hc => hIH c (List.mem_cons_of_mem e hc))
            (fun c hc => hhead c (List.mem_cons_of_mem e hc)) f rest ?_
          omega
        simp only [hce]

/-- Parsing the flat token list of a well-formed tree (with any trailing
tokens) returns exactly that tree, leaving the trailing tokens. -/
theorem fromTokensF_flat {e : Expr} (hwf : WF e) :
    ∀ fuel (rest : List (List Char)), (flatTokens e).length ≤ fuel →
      fromTokensF fuel (flatTokens e ++ rest) = Except.ok (e, rest) := by
  induction hwf with
  | int n =>
    intro fuel rest hfuel
    cases fuel with
    | zero => simp [flatTokens] at hfuel
    | succ f =>
      show fromTokensF (f + 1) ([intChars n] ++ rest) = _
      rw [List.singleton_append, fromTokensF.eq_def]
      simp only [if_neg (symTok_ne_parens (intChars_symTok n)).1,
        if_neg (symTok_ne_parens (intChars_symTok n)).2]
      rw [atomize_int]
  | float d hd =>
    intro fuel rest hfuel
    cases fuel with
    | zero => simp [flatTokens] at hfuel
    | succ f =>
      show fromTokensF (f + 1) ([floatChars d] ++ rest) = _
      rw [List.singleton_append, fromTokensF.eq_def]
      simp only [if_neg (symTok_ne_parens (floatChars_symTok d)).1,
        if_neg (symTok_ne_parens (floatChars_symTok d)).2]
      rw [atomize_float d hd]
  | str s hs =>
    intro fuel rest hfuel
    cases fuel with
    | zero => simp [flatTokens] at hfuel
    | succ f =>
      show fromTokensF (f + 1) ([s.data] ++ rest) = _
      have hne : s.data ≠ ['('] ∧ s.data ≠ [')'] := by
        rcases hs.2.2 with hqt | hsym
        · exact quotedTok_ne_parens hqt
        · exact symTok_ne_parens hsym
      rw [List.singleton_append, fromTokensF.eq_def]
      simp only [if_neg hne.1, if_neg hne.2]
      rw [atomize_str hs]
  | node name data hname hdata ih =>
    intro fuel rest hfuel
    have hlen : (flatTokens (Expr.node name data)).length = (flatList data).length + 3 := by
      rw [show flatTokens (Expr.node name data) =
        ['('] :: name.data :: (flatList data ++ [[')']]) from rfl]
      simp
    cases fuel with
    | zero => omega
    | succ f =>
      show fromTokensF (f + 1)
        ((['('] :: name.data :: (flatList data ++ [[')']])) ++ rest) = _
      rw [List.cons_append, List.cons_append, fromTokensF.eq_def]
      have hch : parseChildrenF f ((flatList data ++ [[')']]) ++ rest) =
          Except.ok (data, rest) := by
        rw [List.append_assoc, show (([[')']] : List (List Char)) ++ rest) = [')'] :: rest
          from rfl]
        refine reparseChildren data ih
          (fun c hc => flatTokens_head_ne_rparen (hdata c hc)) f rest ?_
        omega
      simp only [if_pos rfl, hch, ite_true]

theorem atomize_wf {t : List Char} (hp : ProducedTok t) (hq : t ≠ ['"'])
    (h1 : t ≠ ['(']) (h2 : t ≠ [')']) : WF (atomize t) := by
  unfold atomize
  cases hi : intParse? t with
  | some n => exact WF.int n
  | none =>
    cases hf : floatParse? t with
    | some q => exact WF.float q (floatParse?_wf t q hf)
    | none =>
      refine WF.str (String.mk t) ⟨hi, hf, ?_⟩
      rcases hp with h | h | h | h | h
      · exact absurd h h1
      · exact absurd h h2
      · exact Or.inl h
      · exact absurd h hq
      · exact Or.inr h

mutual

/-- Any tree parsed out of tokenizer-produced tokens with no lone-quote token
is well formed, and the unconsumed tokens are among the input tokens. -/
theorem fromTokensF_wf : ∀ (fuel : ℕ) (ts : List (List Char)) (e : Expr)
    (rest : List (List Char)), (∀ t ∈ ts, ProducedTok t) → (['"'] : List Char) ∉ ts →
    fromTokensF fuel ts = Except.ok (e, rest) → WF e ∧ ∀ t ∈ rest, t ∈ ts
  | 0 => by
    intro ts e rest _ _ h
    cases h
  | fuel + 1 => by
    intro ts e rest hprod hq h
    cases ts with
    | nil => cases h
    | cons t ts' =>
      rw [fromTokensF.eq_def] at h
      simp only [] at h
      by_cases h1 : t = ['(']
      · rw [if_pos h1] at h
        cases ts' with
        | nil => cases h
        | cons typ ts2 =>
          simp only [] at h
          cases hc : parseChildrenF fuel ts2 with
          | error err =>
            rw [hc] at h
            cases h
          | ok pr =>
            obtain ⟨children, rest2⟩ := pr
            rw [hc] at h
            injection h with h
            rw [Prod.mk.injEq] at h
            obtain ⟨he, hrest⟩ := h
            subst he
            subst hrest
            have hmemtyp : typ ∈ t :: typ :: ts2 := List.mem_cons_of_mem t (List.mem_cons_self typ ts2)
            have hsub2 : ∀ u ∈ ts2, u ∈ t :: typ :: ts2 := fun u hu =>
              List.mem_cons_of_mem t (List.mem_cons_of_mem typ hu)
            obtain ⟨hch, hsub⟩ := parseChildrenF_wf fuel ts2 children rest2
              (fun u hu => hprod u (hsub2 u hu)) (fun hmem => hq (hsub2 _ hmem)) hc
            refine ⟨WF.node (String.mk typ) children ?_ hch, fun u hu => hsub2 u (hsub u hu)⟩
            show NameTok typ
            rcases hprod typ hmemtyp with hh | hh | hh | hh | hh
            · exact Or.inl hh
            · exact Or.inr (Or.inl hh)
            · exact Or.inr (Or.inr (Or.inl hh))
            · exact absurd (hh ▸ hmemtyp) hq
            · exact Or.inr (Or.inr (Or.inr hh))
      · rw [if_neg h1] at h
        by_cases h2 : t = [')']
        · rw [if_pos h2] at h
          cases h
        · rw [if_neg h2] at h
          injection h with h
          rw [Prod.mk.injEq] at h
          obtain ⟨he, hrest⟩ := h
          subst he
          subst hrest
          refine ⟨atomize_wf (hprod t (List.mem_cons_self t ts')) ?_ h1 h2,
            fun u hu => List.mem_cons_of_mem t hu⟩
          intro hcontr
          exact hq (hcontr ▸ List.mem_cons_self t ts')

theorem parseChildrenF_wf : ∀ (fuel : ℕ) (ts : List (List Char)) (es : List Expr)
    (rest : List (List Char)), (∀ t ∈ ts, ProducedTok t) → (['"'] : List Char) ∉ ts →
    parseChildrenF fuel ts = Except.ok (es, rest) → (∀ c ∈ es, WF c) ∧ ∀ t ∈ rest, t ∈ ts
  | 0 => by
    intro ts es rest _ _ h
    cases h
  | fuel + 1 => by
    intro ts es rest hprod hq h
    cases ts with
    | nil => cases h
    | cons t ts' =>
      rw [parseChildrenF] at h
      by_cases h2 : t = [')']
      · rw [if_pos h2] at h
        injection h with h
        rw [Prod.mk.injEq] at h
        obtain ⟨he, hrest⟩ := h
        subst he
        subst hrest
        exact ⟨fun c hc => absurd hc (List.not_mem_nil c),
          fun u hu => List.mem_cons_of_mem t hu⟩
      · rw [if_neg h2] at h
        cases hf : fromTokensF fuel (t :: ts') with
        | error err =>
          rw [hf] at h
          cases h
        | ok pr =>
          obtain ⟨e, mid⟩ := pr
          rw [hf] at h
          simp only [] at h
          cases hcc : parseChildrenF fuel mid with
          | error err =>
            rw [hcc] at h
            cases h
          | ok pr2 =>
            obtain ⟨es2, rest2⟩ := pr2
            rw [hcc] at h
            injection h with h
            rw [Prod.mk.injEq] at h
            obtain ⟨he, hrest⟩ := h
            subst he
            subst hrest
            obtain ⟨hwe, hsubmid⟩ := fromTokensF_wf fuel (t :: ts') e mid hprod hq hf
            obtain ⟨hwes, hsub2⟩ := parseChildrenF_wf fuel mid es2 rest2
              (fun u hu => hprod u (hsubmid u hu)) (fun hmem => hq (hsubmid _ hmem)) hcc
            refine ⟨?_, fun u hu => hsubmid u (hsub2 u hu)⟩
            intro c hc
            rcases List.mem_cons.mp hc with rfl | hmem
            · exact hwe
            · exact hwes c hmem

end

/-- C1: round-trip stability. For every input text whose parse succeeds and
whose tokenization contains no lone (unterminated) quote token, serializing
the parsed tree and parsing the result yields the same tree:
parse(serialize(parse(x))) tree-equals parse(x). -/
theorem parse_serialize_parse (x : String) (e : Expr)
    (hparse : fromStr x = Except.ok e) (hq : (['"'] : List Char) ∉ tokenize x.data) :
    fromStr (serialize e) = Except.ok e := by
  have hparse' : ∃ rest, fromTokensF ((tokenize x.data).length + 1) (tokenize x.data) =
      Except.ok (e, rest) := by
    unfold fromStr fromStrL at hparse
    cases hft : fromTokensF ((tokenize x.data).length + 1) (tokenize x.data) with
    | error err =>
      rw [hft] at hparse
      cases hparse
    | ok pr =>
      obtain ⟨e2, rest⟩ := pr
      rw [hft] at hparse
      injection hparse with hparse
      subst hparse
      exact ⟨rest, rfl⟩
  obtain ⟨rest, hft⟩ := hparse'
  have hwf : WF e :=
    (fromTokensF_wf ((tokenize x.data).length + 1) (tokenize x.data) e rest
      (tokenize_producedTok x.data) hq hft).1
  have htok : tokenize (serialize e).data = flatTokens e := by
    show tokenize (exprChars e) = flatTokens e
    have := tokenize_exprChars hwf [] (by intro ch hch; cases hch)
    rw [List.append_nil, tokenize_nil, List.append_nil] at this
    exact this
  show fromStrL (serialize e).data = Except.ok e
  unfold fromStrL
  rw [htok]
  have hrun : fromTokensF ((flatTokens e).length + 1) (flatTokens e) = Except.ok (e, []) := by
    have h2 := fromTokensF_flat hwf ((flatTokens e).length + 1) [] (by simp)
    rw [List.append_nil] at h2
    exact h2
  simp only [hrun]

/-- C1 witness: the hypotheses of `parse_serialize_parse` hold at the concrete
input `"\n(a 1)"` and the round trip reproduces its tree. -/
theorem parse_serialize_parse_witness :
    fromStr "\n(a 1)" = Except.ok (Expr.node "a" [Expr.int 1]) ∧
    (['"'] : List Char) ∉ tokenize ("\n(a 1)" : String).data ∧
    fromStr (serialize (Expr.node "a" [Expr.int 1])) =
      Except.ok (Expr.node "a" [Expr.int 1]) := by
  have hdata : ("\n(a 1)" : String).data = ['\n', '(', 'a', ' ', '1', ')'] := rfl
  have htok : tokenize ['\n', '(', 'a', ' ', '1', ')'] = [['('], ['a'], ['1'], [')']] := by
    rw [tokenize_ws (by decide), tokenize_lparen, tokenize_sym_start (by decide),
      show List.takeWhile isSymChar [' ', '1', ')'] = [] by decide,
      show List.dropWhile isSymChar [' ', '1', ')'] = [' ', '1', ')'] by decide,
      tokenize_ws (by decide), tokenize_sym_start (by decide),
      show List.takeWhile isSymChar [')'] = [] by decide,
      show List.dropWhile isSymChar [')'] = [')'] by decide,
      tokenize_rparen, tokenize_nil]
  have h1 : fromStr "\n(a 1)" = Except.ok (Expr.node "a" [Expr.int 1]) := by
    show fromStrL ("\n(a 1)" : String).data = _
    rw [hdata]
    unfold fromStrL
    rw [htok]
    rfl
  have h2 : (['"'] : List Char) ∉ tokenize ("\n(a 1)" : String).data := by
    rw [hdata, htok]
    decide
  exact ⟨h1, h2, parse_serialize_parse "\n(a 1)" (Expr.node "a" [Expr.int 1]) h1 h2⟩

/-- Result of Python attribute lookup on an `Expr` node: a single returned
child (or plain string), a dict keyed by first fields, a plain list of
occurrences, or a raised exception. -/
inductive GetattrRes where
  | val (e : Expr)
  | dict (m : List (String × Expr))
  | list (l : List Expr)
  | err (msg : String)
deriving DecidableEq

/-- The tag names `Expr.parsed` collects into `_known_attrs`: names of the
children that are themselves `Expr` nodes (plain atoms are skipped). -/
def childNames : List Expr → List String
  | [] => []
  | Expr.node nm _ :: rest => nm :: childNames rest
  | _ :: rest => childNames rest

/-- Python `str.strip` with `'"'`: remove all leading and trailing quote
characters. -/
def stripQuotes (s : String) : String :=
  String.mk (((s.data.dropWhile (fun c => c == '"')).reverse.dropWhile
    (fun c => c == '"')).reverse)

/-- Python dict assignment `d[k] = v`: overwrite in place if the key exists,
else append, preserving insertion order. -/
def dictInsert (m : List (String × Expr)) (k : String) (v : Expr) :
    List (String × Expr) :=
  if m.any (fun p => p.1 = k) then m.map (fun p => if p.1 = k then (k, v) else p)
  else m ++ [(k, v)]

/-- The first loop of `__getattr__` (the single-occurrence fast path): plain
strings equal to the name and nodes named the name return immediately; a
numeric child reaches `item.name` and raises; falling off the loop yields
`none`. -/
def findSingle : List Expr → String → Option GetattrRes
  | [], _ => none
  | Expr.str s :: rest, name =>
    if s = name then some (GetattrRes.val (Expr.str s)) else findSingle rest name
  | Expr.node nm d :: rest, name =>
    if nm = name then some (GetattrRes.val (Expr.node nm d)) else findSingle rest name
  | Expr.int _ :: _, _ =>
    some (GetattrRes.err "AttributeError: object has no attribute name")
  | Expr.float _ :: _, _ =>
    some (GetattrRes.err "AttributeError: object has no attribute name")

/-- The dict/list loop of `__getattr__`.  Faithful to the source: `item.name`
on a non-`Expr` child raises; `item[0]` on an empty child raises IndexError; a
node-valued first field sets `skip`; the duplicate test compares the RAW
(unstripped) first field against the stripped dict keys; the stored key is
stripped; `.strip` on a numeric first field raises. -/
def dictLoop : List Expr → String → List (String × Expr) → List Expr → Bool → GetattrRes
  | [], _, m, items, skip =>
    if skip then GetattrRes.list items else GetattrRes.dict m
  | item :: rest, name, m, items, skip =>
    match item with
    | Expr.node nm d =>
      if nm = name then
        if skip then dictLoop rest name m (items ++ [item]) skip
        else
          match d with
          | [] => GetattrRes.err "IndexError: list index out of range"
          | first :: _ =>
            match first with
            | Expr.node fn fd =>
              dictLoop rest name m (items ++ [Expr.node nm (Expr.node fn fd :: (d.drop 1))]) true
            | Expr.str s =>
              if m.any (fun p => p.1 = s) then dictLoop rest name m (items ++ [item]) true
              else dictLoop rest name (dictInsert m (stripQuotes s) item) (items ++ [item]) skip
            | Expr.int _ => GetattrRes.err "AttributeError: object has no attribute strip"
            | Expr.float _ => GetattrRes.err "AttributeError: object has no attribute strip"
      else dictLoop rest name m items skip
    | _ => GetattrRes.err "AttributeError: object has no attribute name"

/-- Embedding of `Expr.__getattr__` over the node's children: unknown names
raise AttributeError; a name seen exactly once among node children takes the
fast path; otherwise the dict/list loop decides between a keyed map and a
plain list. -/
def getattrE (data : List Expr) (name : String) : GetattrRes :=
  if name ∈ childNames data then
    if (childNames data).count name ≤ 1 then
      match findSingle data name with
      | some r => r
      | none => dictLoop data name [] [] false
    else dictLoop data name [] [] false
  else GetattrRes.err "AttributeError"

/-- The node children with the looked-up tag name, in order. -/
def occurrences (data : List Expr) (name : String) : List Expr :=
  data.filter (fun e =>
    match e with
    | Expr.node nm _ => nm = name
    | _ => false)

/-- The stripped key of an occurrence, when its first field is a plain
string atom. -/
def occKey : Expr → Option String
  | Expr.node _ (Expr.str s :: _) => some (stripQuotes s)
  | _ => none

/-- Follows the words of the spec contract for attribute lookup: absent tag
is an error; a tag occurring exactly once returns the single child; if every
occurrence has a plain-atom first field and no stripped key collides, a map
from stripped keys to occurrences; otherwise the plain list of all
occurrences in order. -/
def getattrSpec (data : List Expr) (name : String) : GetattrRes :=
  match occurrences data name with
  | [] => GetattrRes.err "AttributeError"
  | [o] => GetattrRes.val o
  | occ =>
    let keys := occ.map occKey
    if keys.all (fun k => k.isSome) ∧
        (keys.filterMap id).Nodup then
      GetattrRes.dict (occ.filterMap (fun o => (occKey o).map (fun k => (k, o))))
    else GetattrRes.list occ

/-- C7: divergence on the documented duplicate-key example.  For a node with
three property children keyed `"A"`, `"B"`, `"A"`, the spec contract demands
a plain 3-element list (the stripped key `A` collides), but the code compares
the UNSTRIPPED first field `"A"` (with quotes) against the stripped dict keys,
never detects the duplicate, and returns a 2-element map in which the third
property has overwritten the first. -/
theorem getattr_duplicate_key_divergence :
    getattrE [Expr.node "property" [Expr.str "\"A\"", Expr.int 1],
        Expr.node "property" [Expr.str "\"B\"", Expr.int 2],
        Expr.node "property" [Expr.str "\"A\"", Expr.int 3]] "property" =
      GetattrRes.dict
        [("A", Expr.node "property" [Expr.str "\"A\"", Expr.int 3]),
         ("B", Expr.node "property" [Expr.str "\"B\"", Expr.int 2])] ∧
    getattrSpec [Expr.node "property" [Expr.str "\"A\"", Expr.int 1],
        Expr.node "property" [Expr.str "\"B\"", Expr.int 2],
        Expr.node "property" [Expr.str "\"A\"", Expr.int 3]] "property" =
      GetattrRes.list
        [Expr.node "property" [Expr.str "\"A\"", Expr.int 1],
         Expr.node "property" [Expr.str "\"B\"", Expr.int 2],
         Expr.node "property" [Expr.str "\"A\"", Expr.int 3]] ∧
    getattrE [Expr.node "property" [Expr.str "\"A\"", Expr.int 1],
        Expr.node "property" [Expr.str "\"B\"", Expr.int 2],
        Expr.node "property" [Expr.str "\"A\"", Expr.int 3]] "property" ≠
      getattrSpec [Expr.node "property" [Expr.str "\"A\"", Expr.int 1],
        Expr.node "property" [Expr.str "\"B\"", Expr.int 2],
        Expr.node "property" [Expr.str "\"A\"", Expr.int 3]] "property" := by
  refine ⟨by decide, by decide, by decide⟩

/-- `x < 20211123` for an exact decimal (Python float/int comparison). -/
def decLtInt (d : Dec) (n : ℤ) : Bool :=
  if 0 ≤ d.s then decide (d.m * 10 ^ d.s.toNat < n)
  else decide (d.m < n * 10 ^ (-d.s).toNat)

/-- The message of the `VersionError` raised by `Project.parse`. -/
def versionError : String := "VersionError: kicad file format versions pre-6.0.0 are unsupported"

/-- Embedding of the version gate of `Project.parse`
(`if sch.version[0] < 20211123: raise VersionError(...)`) over the root
schematic node's children.  `sch.version` is the generic attribute lookup;
`[0]` indexes the returned child; the comparison succeeds on numbers and
raises on non-numeric shapes as Python would. -/
def projectVersionGate (data : List Expr) : Except String Unit :=
  match getattrE data "version" with
  | GetattrRes.err msg => Except.error msg
  | GetattrRes.val (Expr.node _ d) =>
    match d with
    | [] => Except.error "IndexError: list index out of range"
    | Expr.int v :: _ =>
      if v < 20211123 then Except.error versionError else Except.ok ()
    | Expr.float f :: _ =>
      if decLtInt f 20211123 then Except.error versionError else Except.ok ()
    | Expr.str _ :: _ => Except.error "TypeError: unorderable str and int"
    | Expr.node _ _ :: _ => Except.error "TypeError: unorderable list and int"
  | GetattrRes.val (Expr.str s) =>
    match s.data with
    | [] => Except.error "IndexError: string index out of range"
    | _ :: _ => Except.error "TypeError: unorderable str and int"
  | GetattrRes.val _ => Except.error "TypeError: unorderable object and int"
  | GetattrRes.dict _ => Except.error "KeyError: 0"
  | GetattrRes.list l =>
    match l with
    | [] => Except.error "IndexError: list index out of range"
    | _ :: _ => Except.error "TypeError: unorderable list and int"

/-- C2 (corrected): the version gate of `Project.parse` only rejects versions
BELOW 20211123, not every version other than 20211123.  For an integer
version `v` the gate raises the named version error exactly when
`v < 20211123`; in particular the unsupported newer version 20211124 is
accepted, contradicting the claim that any value other than the single
literal is rejected. -/
theorem project_parse_version_gate (v : ℤ) :
    (projectVersionGate [Expr.node "version" [Expr.int v]] = Except.error versionError ↔
      v < 20211123) ∧
    projectVersionGate [Expr.node "version" [Expr.int 20211124]] = Except.ok () := by
  constructor
  · have hval : projectVersionGate [Expr.node "version" [Expr.int v]] =
        if v < 20211123 then Except.error versionError else Except.ok () := rfl
    rw [hval]
    by_cases h : v < 20211123
    · rw [if_pos h]
      exact iff_of_true rfl h
    · rw [if_neg h]
      exact iff_of_false (fun hc => Except.noConfusion hc) h
  · rfl

/-- C2 witness: the amended gate characterization evaluated at the rejected
version 20211122 (below the literal) and the accepted version 20211124. -/
theorem project_parse_version_gate_witness :
    projectVersionGate [Expr.node "version" [Expr.int 20211122]] =
      Except.error versionError ∧
    projectVersionGate [Expr.node "version" [Expr.int 20211124]] = Except.ok () :=
  ⟨(project_parse_version_gate 20211122).1.mpr (by decide),
    (project_parse_version_gate 20211124).2⟩

/-- C2 counterexample: a schematic with version 20211124 — a value other than
the single supported literal — passes the gate of `Project.parse` without any
error. -/
theorem project_parse_version_gate_counterexample :
    projectVersionGate [Expr.node "version" [Expr.int 20211124]] = Except.ok () := rfl

/-- Values of the generic `list[list | str]` s-expression passed to
`KicadExpr.from_list` (numbers and the injected Python `True` included). -/
inductive LVal where
  | str (s : String)
  | int (n : ℤ)
  | bool (b : Bool)
  | list (l : List LVal)

mutual
def decEqLVal : (a : LVal) → (b : LVal) → Decidable (a = b)
  | LVal.str s, LVal.str t =>
    match String.decEq s t with
    | isTrue h => isTrue (by rw [h])
    | isFalse h => isFalse (fun hc => h (by cases hc; rfl))
  | LVal.int m, LVal.int n =>
    match Int.instDecidableEq m n with
    | isTrue h => isTrue (by rw [h])
    | isFalse h => isFalse (fun hc => h (by cases hc; rfl))
  | LVal.bool a, LVal.bool b =>
    match Bool.decEq a b with
    | isTrue h => isTrue (by rw [h])
    | isFalse h => isFalse (fun hc => h (by cases hc; rfl))
  | LVal.list l, LVal.list m =>
    match decEqLValList l m with
    | isTrue h => isTrue (by rw [h])
    | isFalse h => isFalse (fun hc => h (by cases hc; rfl))
  | LVal.str _, LVal.int _ => isFalse (fun hc => LVal.noConfusion hc)
  | LVal.str _, LVal.bool _ => isFalse (fun hc => LVal.noConfusion hc)
  | LVal.str _, LVal.list _ => isFalse (fun hc => LVal.noConfusion hc)
  | LVal.int _, LVal.str _ => isFalse (fun hc => LVal.noConfusion hc)
  | LVal.int _, LVal.bool _ => isFalse (fun hc => LVal.noConfusion hc)
  | LVal.int _, LVal.list _ => isFalse (fun hc => LVal.noConfusion hc)
  | LVal.bool _, LVal.str _ => isFalse (fun hc => LVal.noConfusion hc)
  | LVal.bool _, LVal.int _ => isFalse (fun hc => LVal.noConfusion hc)
  | LVal.bool _, LVal.list _ => isFalse (fun hc => LVal.noConfusion hc)
  | LVal.list _, LVal.str _ => isFalse (fun hc => LVal.noConfusion hc)
  | LVal.list _, LVal.int _ => isFalse (fun hc => LVal.noConfusion hc)
  | LVal.list _, LVal.bool _ => isFalse (fun hc => LVal.noConfusion hc)

def decEqLValList : (l : List LVal) → (m : List LVal) → Decidable (l = m)
  | [], [] => isTrue rfl
  | [], _ :: _ => isFalse (fun hc => List.noConfusion hc)
  | _ :: _, [] => isFalse (fun hc => List.noConfusion hc)
  | a :: l, b :: m =>
    match decEqLVal a b with
    | isTrue h1 =>
      match decEqLValList l m with
      | isTrue h2 => isTrue (by rw [h1, h2])
      | isFalse h2 => isFalse (fun hc => h2 (by cases hc; rfl))
    | isFalse h1 => isFalse (fun hc => h1 (by cases hc; rfl))
end

instance : DecidableEq LVal := decEqLVal

/-- Is this element a Python `list`? (`isinstance(arg, list)`). -/
def LVal.isList : LVal → Bool
  | LVal.list _ => true
  | _ => false

/-- The keyword-argument pairs `_get_args` builds from the elements after the
first list: a list becomes `(kwarg[0], kwarg[1:])` (empty lists raise
IndexError), a bare atom after the lists becomes `(atom, [True])`. -/
def kwargList : List LVal → Except String (List (LVal × List LVal))
  | [] => Except.ok []
  | LVal.list [] :: _ => Except.error "IndexError: list index out of range"
  | LVal.list (k :: t) :: rest =>
    match kwargList rest with
    | Except.ok kws => Except.ok ((k, t) :: kws)
    | Except.error e => Except.error e
  | v :: rest =>
    match kwargList rest with
    | Except.ok kws => Except.ok ((v, [LVal.bool true]) :: kws)
    | Except.error e => Except.error e

/-- Python dict collection of duplicate keywords: append to the entry if the
key exists, else add a new entry at the end. -/
def kwInsert (m : List (LVal × List (List LVal))) (k : LVal) (v : List LVal) :
    List (LVal × List (List LVal)) :=
  if m.any (fun p => p.1 = k) then
    m.map (fun p => if p.1 = k then (p.1, p.2 ++ [v]) else p)
  else m ++ [(k, [v])]

def kwFold (kws : List (LVal × List LVal)) (m : List (LVal × List (List LVal))) :
    List (LVal × List (List LVal)) :=
  match kws with
  | [] => m
  | (k, v) :: rest => kwFold rest (kwInsert m k v)

/-- Embedding of `_get_args`: leading non-list elements are positional args,
the rest become a kwarg dict collecting duplicates into lists. -/
def getArgs (expr : List LVal) :
    Except String (List LVal × List (LVal × List (List LVal))) :=
  let args := expr.takeWhile (fun a => !a.isList)
  let rest := expr.dropWhile (fun a => !a.isList)
  match kwargList rest with
  | Except.ok kws => Except.ok (args, kwFold kws [])
  | Except.error e => Except.error e

def kwLookup (k : LVal) (m : List (LVal × List (List LVal))) :
    Option (List (List LVal)) :=
  (m.find? (fun p => p.1 = k)).map Prod.snd

/-- The amended `ValueError` text of `Schematic.check_version` (only version
20211123 is supported). -/
def schematicVersionError (v : ℤ) : String :=
  "ValueError: only the stable KiCad 6 schematic file format, version 20211123, is supported. Got " ++
    String.mk (intChars v)

/-- Pydantic validation of `Schematic(version=x)`: ints (and bools, which are
ints in Python) are checked against the literal; numeric strings coerce first;
anything else is a validation error. -/
def checkVersion (x : LVal) : Except String Unit :=
  match x with
  | LVal.int n =>
    if n = 20211123 then Except.ok () else Except.error (schematicVersionError n)
  | LVal.bool b =>
    let n : ℤ := if b then 1 else 0
    if n = 20211123 then Except.ok () else Except.error (schematicVersionError n)
  | LVal.str s =>
    match intParse? s.data with
    | some n =>
      if n = 20211123 then Except.ok () else Except.error (schematicVersionError n)
    | none => Except.error "ValidationError: value is not a valid integer"
  | LVal.list _ => Except.error "ValidationError: value is not a valid integer"

/-- The field names of the `Schematic` dataclass; `fields[kw]` raises
KeyError for anything else. -/
def schematicFields : List String :=
  ["version", "generator", "uuid", "title_block", "paper", "lib_symbols",
   "sheet", "symbol", "polyline", "wire", "bus", "image", "junction",
   "no_connect", "bus_entry", "text", "label", "hierarchical_label",
   "global_label", "sheet_instances", "symbol_instances", "bus_alias"]

/-- The field-resolution step of the main kwargs loop of
`KicadExpr.from_list`: each keyword must name a `Schematic` field, else
`fields[kw]` raises KeyError.  (The per-field parsing that follows a
successful lookup is not needed for the gating property.) -/
def processKwargs (kwargs : List (LVal × List (List LVal))) : Except String Unit :=
  match kwargs with
  | [] => Except.ok ()
  | (LVal.str s, _) :: rest =>
    if s ∈ schematicFields then processKwargs rest
    else Except.error ("KeyError: " ++ s)
  | _ => Except.error "KeyError: non-string field name"

/-- Embedding of `KicadExpr.from_list` specialised to the `kicad_sch` root:
`_get_args` first, then — before any other field is touched — an early
`cls(version=parsed_kwargs[version-key][0][0])` whose validator rejects any
version other than 20211123, and only then the main loop over the keyword
arguments. -/
def fromListSchematic (expr : List LVal) : Except String Unit :=
  match getArgs expr with
  | Except.error e => Except.error e
  | Except.ok (_, kwargs) =>
    match kwLookup (LVal.str "version") kwargs with
    | some occ =>
      match occ with
      | [] => Except.error "IndexError: list index out of range"
      | first :: _ =>
        match first with
        | [] => Except.error "IndexError: list index out of range"
        | x :: _ =>
          match checkVersion x with
          | Except.error e => Except.error e
          | Except.ok () => processKwargs kwargs
    | none => processKwargs kwargs

theorem kwInsert_head_preserved (m : List (LVal × List (List LVal))) (k k2 : LVal)
    (v : List LVal) (vs : List (List LVal)) (first : List LVal)
    (h : kwLookup k m = some vs) (hfirst : vs.head? = some first) :
    ∃ vs2, kwLookup k (kwInsert m k2 v) = some vs2 ∧ vs2.head? = some first := by
  unfold kwLookup at h ⊢
  unfold kwInsert
  cases hf : m.find? (fun p => p.1 = k) with
  | none =>
    rw [hf] at h
    cases h
  | some p =>
    rw [hf] at h
    injection h with h
    subst h
    have hmem := List.mem_of_find?_eq_some hf
    have hpk : p.1 = k := by
      have := List.find?_some hf
      exact of_decide_eq_true this
    by_cases hany : m.any (fun q => q.1 = k2)
    · rw [if_pos hany]
      by_cases hkk : k2 = k
      · subst hkk
        refine ⟨p.2 ++ [v], ?_, ?_⟩
        · rw [List.find?_map]
          have : (List.find? ((fun q => decide (q.1 = k2)) ∘
              fun q => if q.1 = k2 then (q.1, q.2 ++ [v]) else q) m) = some p := by
            rw [show ((fun q => decide (q.1 = k2)) ∘
              fun q => if q.1 = k2 then (q.1, q.2 ++ [v]) else q) =
                (fun q => decide (q.1 = k2)) from ?_]
            · exact hf
            · funext q
              simp only [Function.comp_apply]
              by_cases hq : q.1 = k2
              · rw [if_pos hq]
              · rw [if_neg hq]
          rw [this]
          rw [Option.map_some']
          rw [if_pos hpk]
          rfl
        · rw [List.head?_append_of_ne_nil]
          · exact hfirst
          · intro hnil
            rw [hnil] at hfirst
            cases hfirst
      · refine ⟨p.2, ?_, hfirst⟩
        rw [List.find?_map]
        have : (List.find? ((fun q => decide (q.1 = k)) ∘
            fun q => if q.1 = k2 then (q.1, q.2 ++ [v]) else q) m) = some p := by
          rw [show ((fun q => decide (q.1 = k)) ∘
            fun q => if q.1 = k2 then (q.1, q.2 ++ [v]) else q) =
              (fun q => decide (q.1 = k)) from ?_]
          · exact hf
          · funext q
            simp only [Function.comp_apply]
            by_cases hq : q.1 = k2
            · rw [if_pos hq]
            · rw [if_neg hq]
        rw [this, Option.map_some']
        rw [if_neg (by rw [hpk]; exact fun hc => hkk hc.symm)]
        rfl
    · rw [if_neg hany]
      refine ⟨p.2, ?_, hfirst⟩
      rw [List.find?_append, hf]
      rfl

theorem kwFold_head_preserved (kws : List (LVal × List LVal))
    (m : List (LVal × List (List LVal))) (k : LVal) (vs : List (List LVal))
    (first : List LVal) (h : kwLookup k m = some vs) (hfirst : vs.head? = some first) :
    ∃ vs2, kwLookup k (kwFold kws m) = some vs2 ∧ vs2.head? = some first := by
  induction kws generalizing m vs with
  | nil => exact ⟨vs, h, hfirst⟩
  | cons kv rest ih =>
    obtain ⟨k2, v⟩ := kv
    obtain ⟨vs2, h2, hf2⟩ := kwInsert_head_preserved m k k2 v vs first h hfirst
    exact ih (kwInsert m k2 v) vs2 h2 hf2

/-- C3: early version gating of the typed `Schematic` construction.  If the
generic tree's keyword arguments are extractable and lead with a
`(version v)` field whose integer value differs from 20211123, `from_list`
fails with the version `ValueError` — regardless of how malformed the rest of
the keyword list is, because the partial `cls(version=...)` construction runs
before the main field loop. -/
theorem from_list_version_gate_first (v : ℤ) (rest : List LVal)
    (hv : v ≠ 20211123)
    (hargs : ∃ kws, kwargList (LVal.list [LVal.str "version", LVal.int v] :: rest) =
      Except.ok kws) :
    fromListSchematic (LVal.list [LVal.str "version", LVal.int v] :: rest) =
      Except.error (schematicVersionError v) := by
  obtain ⟨kws, hkws⟩ := hargs
  have hkws' : ∃ kws2, kws = (LVal.str "version", [LVal.int v]) :: kws2 ∧
      kwargList rest = Except.ok kws2 := by
    rw [show kwargList (LVal.list [LVal.str "version", LVal.int v] :: rest) =
      (match kwargList rest with
        | Except.ok kws => Except.ok ((LVal.str "version", [LVal.int v]) :: kws)
        | Except.error e => Except.error e) from rfl] at hkws
    cases hr : kwargList rest with
    | error e =>
      rw [hr] at hkws
      cases hkws
    | ok kws2 =>
      rw [hr] at hkws
      injection hkws with hkws
      exact ⟨kws2, hkws.symm, rfl⟩
  obtain ⟨kws2, hkeq, hrest⟩ := hkws'
  unfold fromListSchematic getArgs
  rw [show (LVal.list [LVal.str "version", LVal.int v] :: rest).takeWhile
      (fun a => !a.isList) = [] from rfl,
    show (LVal.list [LVal.str "version", LVal.int v] :: rest).dropWhile
      (fun a => !a.isList) = LVal.list [LVal.str "version", LVal.int v] :: rest from rfl]
  dsimp only
  rw [hkws, hkeq]
  show (match kwLookup (LVal.str "version")
      (kwFold ((LVal.str "version", [LVal.int v]) :: kws2) []) with
    | some occ => _
    | none => _) = _
  have hbase : kwLookup (LVal.str "version")
      (kwInsert [] (LVal.str "version") [LVal.int v]) = some [[LVal.int v]] := by
    unfold kwInsert kwLookup
    rw [if_neg (by simp)]
    simp [List.find?]
  have hpres := kwFold_head_preserved kws2
    (kwInsert [] (LVal.str "version") [LVal.int v]) (LVal.str "version")
    [[LVal.int v]] [LVal.int v] hbase rfl
  obtain ⟨vs2, hlook, hhead⟩ := hpres
  rw [show kwFold ((LVal.str "version", [LVal.int v]) :: kws2) [] =
    kwFold kws2 (kwInsert [] (LVal.str "version") [LVal.int v]) from rfl]
  rw [hlook]
  cases vs2 with
  | nil => cases hhead
  | cons first tail =>
    rw [List.head?_cons] at hhead
    injection hhead with hhead
    subst hhead
    show (match checkVersion (LVal.int v) with
      | Except.error e => Except.error e
      | Except.ok () => processKwargs _) = _
    rw [show checkVersion (LVal.int v) =
      Except.error (schematicVersionError v) from by
        rw [show checkVersion (LVal.int v) =
          if v = 20211123 then Except.ok () else Except.error (schematicVersionError v)
          from rfl, if_neg hv]]

/-- C3 witness: the gate fires at version 20211124 even with a malformed
unknown trailing field `(garbage 1)` that would raise KeyError if the main
loop were reached. -/
theorem from_list_version_gate_first_witness :
    (20211124 : ℤ) ≠ 20211123 ∧
    fromListSchematic [LVal.list [LVal.str "version", LVal.int 20211124],
        LVal.list [LVal.str "garbage", LVal.int 1]] =
      Except.error (schematicVersionError 20211124) :=
  ⟨by decide,
    from_list_version_gate_first 20211124 [LVal.list [LVal.str "garbage", LVal.int 1]]
      (by decide) ⟨[(LVal.str "version", [LVal.int 20211124]),
        (LVal.str "garbage", [LVal.int 1])], rfl⟩⟩

/-- Is `sub` a prefix of the list? -/
def isPrefixL : List Char → List Char → Bool
  | [], _ => true
  | _ :: _, [] => false
  | a :: sub, c :: cs => a == c && isPrefixL sub cs

/-- Python `str.replace(sub, "")` (left-to-right, non-overlapping removal),
with explicit recursion fuel (the list length suffices). -/
def replaceDropAux : ℕ → List Char → List Char → List Char
  | 0, _, cs => cs
  | _ + 1, _, [] => []
  | fuel + 1, sub, c :: cs =>
    if isPrefixL sub (c :: cs) then replaceDropAux fuel sub ((c :: cs).drop sub.length)
    else c :: replaceDropAux fuel sub cs

def replaceDrop (sub cs : List Char) : List Char := replaceDropAux cs.length sub cs

def isBraceChar (c : Char) : Bool := c == Char.ofNat 123 || c == Char.ofNat 125

/-- Python `str.strip` with both brace characters. -/
def stripBraces (cs : List Char) : List Char :=
  ((cs.dropWhile isBraceChar).reverse.dropWhile isBraceChar).reverse

def isHexChar (c : Char) : Bool :=
  isDigitChar c || (decide ('a' ≤ c) && decide (c ≤ 'f')) ||
    (decide ('A' ≤ c) && decide (c ≤ 'F'))

/-- Embedding of the validation `UUID(hex)` performs: remove every `urn:`
and `uuid:`, strip braces, drop hyphens, and require exactly 32 hex digits. -/
def isValidUUID (s : String) : Bool :=
  let h1 := replaceDrop ("urn:".data) s.data
  let h2 := replaceDrop ("uuid:".data) h1
  let h3 := stripBraces h2
  let h4 := h3.filter (fun c => !(c == '-'))
  h4.length == 32 && h4.all isHexChar

/-- Lowercase hex digit of a value below 16. -/
def toHexChar (n : ℕ) : Char :=
  if n < 10 then Char.ofNat (48 + n) else Char.ofNat (87 + n)

/-- Exactly `k` lowercase hex digits of `n` (most significant first). -/
def hexPad : ℕ → ℕ → List Char
  | 0, _ => []
  | k + 1, n => hexPad k (n / 16) ++ [toHexChar (n % 16)]

/-- The bit surgery of `uuid4()`: 128 random bits with the version nibble
(bits 76-79) forced to 4 and the variant bits (62-63) forced to `10`. -/
def uuid4FromRand (r : ℕ) : ℕ :=
  let x := r % 2 ^ 128
  let x1 := x % 2 ^ 76 + 4 * 2 ^ 76 + x / 2 ^ 80 * 2 ^ 80
  x1 % 2 ^ 62 + 2 * 2 ^ 62 + x1 / 2 ^ 64 * 2 ^ 64

/-- `str(uuid)`: 8-4-4-4-12 lowercase hex groups joined by hyphens. -/
def uuidStr (n : ℕ) : String :=
  String.mk (hexPad 8 (n / 2 ^ 96) ++ '-' ::
    (hexPad 4 (n / 2 ^ 80 % 2 ^ 16) ++ '-' ::
      (hexPad 4 (n / 2 ^ 64 % 2 ^ 16) ++ '-' ::
        (hexPad 4 (n / 2 ^ 48 % 2 ^ 16) ++ '-' :: hexPad 12 (n % 2 ^ 48)))))

/-- Embedding of `TStamp.randomize` over the node's children, with the random
bits of `uuid4` passed in: parse `self.data[0]` as a UUID first (raising and
leaving the data unchanged on failure), and only then overwrite `data[0]`
with the string of a fresh UUIDv4. -/
def randomize (data : List Expr) (r : ℕ) : Except String (List Expr) :=
  match data with
  | [] => Except.error "IndexError: list index out of range"
  | Expr.str s :: rest =>
    if isValidUUID s then
      Except.ok (Expr.str (uuidStr (uuid4FromRand r)) :: rest)
    else Except.error "ValueError: badly formed hexadecimal UUID string"
  | _ :: _ => Except.error "AttributeError: object has no attribute replace"

theorem hexPad_length (k n : ℕ) : (hexPad k n).length = k := by
  induction k generalizing n with
  | zero => rfl
  | succ k ih =>
    unfold hexPad
    rw [List.length_append, ih]
    rfl

theorem toHexChar_hex {n : ℕ} (h : n < 16) : isHexChar (toHexChar n) = true := by
  interval_cases n <;> decide

theorem hexPad_all_hex (k n : ℕ) : ∀ c ∈ hexPad k n, isHexChar c = true := by
  induction k generalizing n with
  | zero => intro c hc; cases hc
  | succ k ih =>
    intro c hc
    unfold hexPad at hc
    rcases List.mem_append.mp hc with hm | hm
    · exact ih (n / 16) c hm
    · rcases List.mem_singleton.mp hm with rfl
      exact toHexChar_hex (Nat.mod_lt _ (by norm_num))

theorem hex_ne_u {c : Char} (h : isHexChar c = true) : c ≠ 'u' := by
  intro hc
  subst hc
  cases h

theorem replaceDropAux_no_u {sub : List Char} {rest : List Char}
    (hsub : sub = 'u' :: rest) (cs : List Char) (hcs : ∀ c ∈ cs, c ≠ 'u') :
    ∀ fuel, replaceDropAux fuel sub cs = cs := by
  induction cs with
  | nil => intro fuel; cases fuel <;> rfl
  | cons c cs' ih =>
    intro fuel
    cases fuel with
    | zero => rfl
    | succ f =>
      unfold replaceDropAux
      have hpre : isPrefixL sub (c :: cs') = false := by
        rw [hsub]
        show ('u' == c && isPrefixL rest cs') = false
        have : ('u' == c) = false := by
          rw [beq_eq_false_iff_ne]
          exact fun hc => hcs c (List.mem_cons_self c cs') hc.symm
        rw [this]
        rfl
      rw [if_neg (by rw [hpre]; exact Bool.false_ne_true)]
      rw [ih (fun x hx => hcs x (List.mem_cons_of_mem c hx)) f]

theorem replaceDrop_no_u {sub : List Char} {rest : List Char}
    (hsub : sub = 'u' :: rest) (cs : List Char) (hcs : ∀ c ∈ cs, c ≠ 'u') :
    replaceDrop sub cs = cs :=
  replaceDropAux_no_u hsub cs hcs cs.length

theorem stripBraces_eq_self {cs : List Char}
    (hhead : ∀ c, cs.head? = some c → isBraceChar c = false)
    (hlast : ∀ c, cs.reverse.head? = some c → isBraceChar c = false) :
    stripBraces cs = cs := by
  unfold stripBraces
  have hdw : cs.dropWhile isBraceChar = cs := by
    cases cs with
    | nil => rfl
    | cons c cs' =>
      rw [List.dropWhile_cons_of_neg]
      rw [hhead c rfl]
      exact Bool.false_ne_true
  rw [hdw]
  have hdw2 : cs.reverse.dropWhile isBraceChar = cs.reverse := by
    cases hrev : cs.reverse with
    | nil => rfl
    | cons c cs' =>
      rw [List.dropWhile_cons_of_neg]
      rw [hlast c (by rw [hrev]; rfl)]
      exact Bool.false_ne_true
  rw [hdw2, List.reverse_reverse]

/-- C10: `TStamp.randomize` parses the stored identifier before assigning.
On a node whose first datum is a string that does not validate as a UUID the
call raises and the data (in particular `data[0]`) is unchanged; when it does
validate, exactly the first datum is replaced by the canonically formatted
string of a fresh UUIDv4 (itself a valid UUID, with version nibble 4 and
variant bits `10`) and the remaining data is untouched. -/
theorem tstamp_randomize_atomic (s : String) (rest : List Expr) (r : ℕ) :
    (isValidUUID s = false →
      randomize (Expr.str s :: rest) r =
        Except.error "ValueError: badly formed hexadecimal UUID string") ∧
    (isValidUUID s = true →
      randomize (Expr.str s :: rest) r =
        Except.ok (Expr.str (uuidStr (uuid4FromRand r)) :: rest)) ∧
    isValidUUID (uuidStr (uuid4FromRand r)) = true ∧
    uuid4FromRand r / 2 ^ 76 % 16 = 4 ∧
    uuid4FromRand r / 2 ^ 62 % 4 = 2 := by
  have hrand : randomize (Expr.str s :: rest) r =
      if isValidUUID s then Except.ok (Expr.str (uuidStr (uuid4FromRand r)) :: rest)
      else Except.error "ValueError: badly formed hexadecimal UUID string" := rfl
  refine ⟨?_, ?_, ?_, ?_, ?_⟩
  · intro h
    rw [hrand, if_neg (by rw [h]; exact Bool.false_ne_true)]
  · intro h
    rw [hrand, if_pos h]
  · set n := uuid4FromRand r with hn
    have hchars : (uuidStr n).data = hexPad 8 (n / 2 ^ 96) ++ '-' ::
        (hexPad 4 (n / 2 ^ 80 % 2 ^ 16) ++ '-' ::
          (hexPad 4 (n / 2 ^ 64 % 2 ^ 16) ++ '-' ::
            (hexPad 4 (n / 2 ^ 48 % 2 ^ 16) ++ '-' :: hexPad 12 (n % 2 ^ 48)))) := rfl
    set L := (uuidStr n).data with hL
    have hmem : ∀ c ∈ L, isHexChar c = true ∨ c = '-' := by
      intro c hc
      rw [hchars] at hc
      simp only [List.mem_append, List.mem_cons] at hc
      rcases hc with h | h | h | h | h | h | h | h | h
      · exact Or.inl (hexPad_all_hex _ _ c h)
      · exact Or.inr h
      · exact Or.inl (hexPad_all_hex _ _ c h)
      · exact Or.inr h
      · exact Or.inl (hexPad_all_hex _ _ c h)
      · exact Or.inr h
      · exact Or.inl (hexPad_all_hex _ _ c h)
      · exact Or.inr h
      · exact Or.inl (hexPad_all_hex _ _ c h)
    have hnou : ∀ c ∈ L, c ≠ 'u' := by
      intro c hc
      rcases hmem c hc with h | h
      · exact hex_ne_u h
      · subst h
        decide
    have hnotbrace : ∀ c ∈ L, isBraceChar c = false := by
      intro c hc
      rcases hmem c hc with h | h
      · rcases Bool.eq_false_or_eq_true (isBraceChar c) with hb | hb
        swap
        · exact hb
        · exfalso
          revert h
          have : c = Char.ofNat 123 ∨ c = Char.ofNat 125 := by
            unfold isBraceChar at hb
            rcases Bool.or_eq_true_iff.mp hb with hb | hb
            · exact Or.inl (eq_of_beq hb)
            · exact Or.inr (eq_of_beq hb)
          rcases this with rfl | rfl <;> decide
      · subst h
        decide
    show isValidUUID (uuidStr n) = true
    unfold isValidUUID
    rw [show (uuidStr n).data = L from rfl]
    dsimp only
    rw [replaceDrop_no_u rfl L hnou, replaceDrop_no_u rfl L hnou]
    rw [stripBraces_eq_self
      (fun c hc => hnotbrace c (List.mem_of_mem_head? hc))
      (fun c hc => hnotbrace c (List.mem_reverse.mp (List.mem_of_mem_head? hc)))]
    have hfilter : L.filter (fun c => !(c == '-')) =
        hexPad 8 (n / 2 ^ 96) ++ (hexPad 4 (n / 2 ^ 80 % 2 ^ 16) ++
          (hexPad 4 (n / 2 ^ 64 % 2 ^ 16) ++ (hexPad 4 (n / 2 ^ 48 % 2 ^ 16) ++
            hexPad 12 (n % 2 ^ 48)))) := by
      rw [hchars]
      have hkeep : ∀ (k m : ℕ), (hexPad k m).filter (fun c => !(c == '-')) = hexPad k m := by
        intro k m
        rw [List.filter_eq_self]
        intro a ha
        have := hexPad_all_hex k m a ha
        rcases Bool.eq_false_or_eq_true (a == '-') with hb | hb
        swap
        · rw [hb]; rfl
        · exfalso
          have ha' : a = '-' := eq_of_beq hb
          subst ha'
          cases this
      rw [List.filter_append, hkeep, List.filter_cons_of_neg (by decide),
        List.filter_append, hkeep, List.filter_cons_of_neg (by decide),
        List.filter_append, hkeep, List.filter_cons_of_neg (by decide),
        List.filter_append, hkeep, List.filter_cons_of_neg (by decide),
        hkeep]
    rw [hfilter]
    rw [Bool.and_eq_true]
    constructor
    · simp only [List.length_append, hexPad_length]
      rfl
    · rw [List.all_eq_true]
      intro a ha
      simp only [List.mem_append] at ha
      rcases ha with h | h | h | h | h <;> exact hexPad_all_hex _ _ a h
  · show (uuid4FromRand r) / 2 ^ 76 % 16 = 4
    unfold uuid4FromRand
    dsimp only
    omega
  · show (uuid4FromRand r) / 2 ^ 62 % 4 = 2
    unfold uuid4FromRand
    dsimp only
    omega

/-- C10 witness: a malformed identifier is rejected and a well-formed one is
replaced by the freshly generated v4 identifier, evaluated at concrete
inputs. -/
theorem tstamp_randomize_atomic_witness :
    randomize [Expr.str "not-a-uuid"] 0 =
      Except.error "ValueError: badly formed hexadecimal UUID string" ∧
    randomize [Expr.str "12345678-1234-5678-1234-567812345678"] 0 =
      Except.ok [Expr.str (uuidStr (uuid4FromRand 0))] :=
  ⟨(tstamp_randomize_atomic "not-a-uuid" [] 0).1 (by decide),
    (tstamp_randomize_atomic "12345678-1234-5678-1234-567812345678" [] 0).2.1 (by decide)⟩

/-- Exact negation of a decimal. -/
def decNeg (a : Dec) : Dec := ⟨-a.m, a.s⟩

/-- Exact addition of decimals (aligning to the smaller exponent). -/
def decAdd (a b : Dec) : Dec :=
  if a.s ≤ b.s then ⟨a.m + b.m * 10 ^ (b.s - a.s).toNat, a.s⟩
  else ⟨b.m + a.m * 10 ^ (a.s - b.s).toNat, b.s⟩

def decSub (a b : Dec) : Dec := decAdd a (decNeg b)

/-- Exact value comparison of decimals. -/
def decLe (a b : Dec) : Bool :=
  if a.s ≤ b.s then decide (a.m ≤ b.m * 10 ^ (b.s - a.s).toNat)
  else decide (a.m * 10 ^ (a.s - b.s).toNat ≤ b.m)

/-- Python `min`/`max` of two floats (first argument wins ties). -/
def decMin (a b : Dec) : Dec := if decLe a b then a else b

def decMax (a b : Dec) : Dec := if decLe b a then a else b

/-- Python `round(x, 4)` (`svg_precision`) on an exact decimal: a value with
at most 4 decimal places is returned unchanged, otherwise round half to
even at the 4th decimal. -/
def roundDec (d : Dec) : Dec :=
  if 0 ≤ d.s + 4 then d
  else
    let dv : ℤ := 10 ^ (-(d.s + 4)).toNat
    let q := Int.fdiv d.m dv
    let r := d.m - q * dv
    let q2 := if 2 * r < dv then q
      else if dv < 2 * r then q + 1
      else if q % 2 = 0 then q else q + 1
    ⟨q2, -4⟩

/-- Python `f"{x}"` on a float holding an exact decimal value: the shortest
decimal representation, i.e. the canonical form printed by `floatChars`. -/
def pyRepr (d : Dec) : String := String.mk (floatChars (canonDec d.m d.s))

/-- The SVG element the drawing code assembles: a tag and its attributes in
append order. -/
structure Elem where
  typ : String
  attrs : List (String × String)
deriving DecidableEq

/-- Numeric value of an atom child (`int` and `float` mix freely in the
Python arithmetic). -/
def atomDec : Expr → Option Dec
  | Expr.int n => some ⟨n, 0⟩
  | Expr.float d => some d
  | _ => none

/-- `self.start[0], self.start[1]` style access: attribute lookup of the tag
followed by numeric indexing of its first two fields. -/
def getPair (data : List Expr) (name : String) : Except String (Dec × Dec) :=
  match getattrE data name with
  | GetattrRes.val (Expr.node _ d) =>
    match d with
    | a :: b :: _ =>
      match atomDec a, atomDec b with
      | some x, some y => Except.ok (x, y)
      | _, _ => Except.error "TypeError: unsupported operand"
    | _ => Except.error "IndexError: list index out of range"
  | GetattrRes.err msg => Except.error msg
  | _ => Except.error "TypeError: unsupported shape"

/-- Embedding of the `rectangle` branch of `Drawable.draw` over the
rectangle node's children: `width`/`height` are max minus min of the two
corner coordinates, `svgx` is the smaller offset x corner, `svgy` applies the
documented vertical flip (`position[1] - start/end y`), and the four
attributes are appended rounded to `svg_precision`. -/
def drawRectangle (data : List Expr) (px py : Dec) : Except String Elem :=
  match getPair data "start", getPair data "end" with
  | Except.ok (sx, sy), Except.ok (ex, ey) =>
    let width := decSub (decMax sx ex) (decMin sx ex)
    let height := decSub (decMax sy ey) (decMin sy ey)
    let svgx := decMin (decAdd px sx) (decAdd px ex)
    let svgy := decMin (decSub py sy) (decSub py ey)
    Except.ok ⟨"rect",
      [("x", pyRepr (roundDec svgx)), ("y", pyRepr (roundDec svgy)),
       ("width", pyRepr (roundDec width)), ("height", pyRepr (roundDec height))]⟩
  | Except.error e, _ => Except.error e
  | Except.ok _, Except.error e => Except.error e

/-- C9: the SVG rectangle literal.  Parsing
`(rectangle (start -5.08 5.08) (end 5.08 -1.905))` yields the rectangle node
with those exact decimal corners, and drawing it at origin produces the
`rect` element with `x="-5.08"`, `y="-5.08"` (vertical flip), `width="10.16"`
and `height="6.985"` (absolute differences of the corners). -/
theorem rectangle_draw_literal :
    fromStr "(rectangle (start -5.08 5.08) (end 5.08 -1.905))" =
      Except.ok (Expr.node "rectangle"
        [Expr.node "start" [Expr.float ⟨-508, -2⟩, Expr.float ⟨508, -2⟩],
         Expr.node "end" [Expr.float ⟨508, -2⟩, Expr.float ⟨-1905, -3⟩]]) ∧
    drawRectangle
        [Expr.node "start" [Expr.float ⟨-508, -2⟩, Expr.float ⟨508, -2⟩],
         Expr.node "end" [Expr.float ⟨508, -2⟩, Expr.float ⟨-1905, -3⟩]]
        ⟨0, 0⟩ ⟨0, 0⟩ =
      Except.ok ⟨"rect",
        [("x", "-5.08"), ("y", "-5.08"), ("width", "10.16"), ("height", "6.985")]⟩ := by
  constructor
  · have hA : tokenize "))".data = [[')'], [')']] := by
      show tokenize (')' :: ')' :: []) = _
      rw [tokenize_rparen, tokenize_rparen, tokenize_nil]
    have hB : tokenize "-1.905))".data = "-1.905".data :: [[')'], [')']] := by
      show tokenize ("-1.905".data ++ "))".data) = _
      rw [tokenize_sym_append ⟨by decide, by decide⟩ (by intro c hc; cases hc; decide), hA]
    have hC : tokenize " -1.905))".data = "-1.905".data :: [[')'], [')']] := by
      show tokenize (' ' :: "-1.905))".data) = _
      rw [tokenize_ws (by decide), hB]
    have hD : tokenize "5.08 -1.905))".data =
        "5.08".data :: "-1.905".data :: [[')'], [')']] := by
      show tokenize ("5.08".data ++ " -1.905))".data) = _
      rw [tokenize_sym_append ⟨by decide, by decide⟩ (by intro c hc; cases hc; decide), hC]
    have hE : tokenize " 5.08 -1.905))".data =
        "5.08".data :: "-1.905".data :: [[')'], [')']] := by
      show tokenize (' ' :: "5.08 -1.905))".data) = _
      rw [tokenize_ws (by decide), hD]
    have hF : tokenize "end 5.08 -1.905))".data =
        "end".data :: "5.08".data :: "-1.905".data :: [[')'], [')']] := by
      show tokenize ("end".data ++ " 5.08 -1.905))".data) = _
      rw [tokenize_sym_append ⟨by decide, by decide⟩ (by intro c hc; cases hc; decide), hE]
    have hG : tokenize "(end 5.08 -1.905))".data =
        ['('] :: "end".data :: "5.08".data :: "-1.905".data :: [[')'], [')']] := by
      show tokenize ('(' :: "end 5.08 -1.905))".data) = _
      rw [tokenize_lparen, hF]
    have hH : tokenize " (end 5.08 -1.905))".data =
        ['('] :: "end".data :: "5.08".data :: "-1.905".data :: [[')'], [')']] := by
      show tokenize (' ' :: "(end 5.08 -1.905))".data) = _
      rw [tokenize_ws (by decide), hG]
    have hI : tokenize ") (end 5.08 -1.905))".data =
        [')'] :: ['('] :: "end".data :: "5.08".data :: "-1.905".data ::
          [[')'], [')']] := by
      show tokenize (')' :: " (end 5.08 -1.905))".data) = _
      rw [tokenize_rparen, hH]
    have hJ : tokenize "5.08) (end 5.08 -1.905))".data =
        "5.08".data :: [')'] :: ['('] :: "end".data :: "5.08".data ::
          "-1.905".data :: [[')'], [')']] := by
      show tokenize ("5.08".data ++ ") (end 5.08 -1.905))".data) = _
      rw [tokenize_sym_append ⟨by decide, by decide⟩ (by intro c hc; cases hc; decide), hI]
    have hK : tokenize " 5.08) (end 5.08 -1.905))".data =
        "5.08".data :: [')'] :: ['('] :: "end".data :: "5.08".data ::
          "-1.905".data :: [[')'], [')']] := by
      show tokenize (' ' :: "5.08) (end 5.08 -1.905))".data) = _
      rw [tokenize_ws (by decide), hJ]
    have hL : tokenize "-5.08 5.08) (end 5.08 -1.905))".data =
        "-5.08".data :: "5.08".data :: [')'] :: ['('] :: "end".data ::
          "5.08".data :: "-1.905".data :: [[')'], [')']] := by
      show tokenize ("-5.08".data ++ " 5.08) (end 5.08 -1.905))".data) = _
      rw [tokenize_sym_append ⟨by decide, by decide⟩ (by intro c hc; cases hc; decide), hK]
    have hM : tokenize " -5.08 5.08) (end 5.08 -1.905))".data =
        "-5.08".data :: "5.08".data :: [')'] :: ['('] :: "end".data ::
          "5.08".data :: "-1.905".data :: [[')'], [')']] := by
      show tokenize (' ' :: "-5.08 5.08) (end 5.08 -1.905))".data) = _
      rw [tokenize_ws (by decide), hL]
    have hN : tokenize "start -5.08 5.08) (end 5.08 -1.905))".data =
        "start".data :: "-5.08".data :: "5.08".data :: [')'] :: ['('] ::
          "end".data :: "5.08".data :: "-1.905".data :: [[')'], [')']] := by
      show tokenize ("start".data ++ " -5.08 5.08) (end 5.08 -1.905))".data) = _
      rw [tokenize_sym_append ⟨by decide, by decide⟩ (by intro c hc; cases hc; decide), hM]
    have hO : tokenize "(start -5.08 5.08) (end 5.08 -1.905))".data =
        ['('] :: "start".data :: "-5.08".data :: "5.08".data :: [')'] ::
          ['('] :: "end".data :: "5.08".data :: "-1.905".data :: [[')'], [')']] := by
      show tokenize ('(' :: "start -5.08 5.08) (end 5.08 -1.905))".data) = _
      rw [tokenize_lparen, hN]
    have hP : tokenize " (start -5.08 5.08) (end 5.08 -1.905))".data =
        ['('] :: "start".data :: "-5.08".data :: "5.08".data :: [')'] ::
          ['('] :: "end".data :: "5.08".data :: "-1.905".data :: [[')'], [')']] := by
      show tokenize (' ' :: "(start -5.08 5.08) (end 5.08 -1.905))".data) = _
      rw [tokenize_ws (by decide), hO]
    have hQ : tokenize "rectangle (start -5.08 5.08) (end 5.08 -1.905))".data =
        "rectangle".data :: ['('] :: "start".data :: "-5.08".data ::
          "5.08".data :: [')'] :: ['('] :: "end".data :: "5.08".data ::
          "-1.905".data :: [[')'], [')']] := by
      show tokenize ("rectangle".data ++ " (start -5.08 5.08) (end 5.08 -1.905))".data) = _
      rw [tokenize_sym_append ⟨by decide, by decide⟩ (by intro c hc; cases hc; decide), hP]
    have hR : tokenize "(rectangle (start -5.08 5.08) (end 5.08 -1.905))".data =
        ['('] :: "rectangle".data :: ['('] :: "start".data :: "-5.08".data ::
          "5.08".data :: [')'] :: ['('] :: "end".data :: "5.08".data ::
          "-1.905".data :: [[')'], [')']] := by
      show tokenize ('(' :: "rectangle (start -5.08 5.08) (end 5.08 -1.905))".data) = _
      rw [tokenize_lparen, hQ]
    show fromStrL "(rectangle (start -5.08 5.08) (end 5.08 -1.905))".data = _
    unfold fromStrL
    rw [hR]
    rfl
  · rfl

end Edea
